import Mathlib

/-!
Shallow embedding of the defmt format-string parser (src/parser/src/lib.rs)
and proofs about its specification.

Strings are modeled as lists of Lean chars; byte offsets are computed from the
chars' UTF-8 sizes, mirroring Rust's byte-indexed `&str`.  A Rust function call
has three possible outcomes: a value, a returned error (`Result::Err`), or an
uncatchable panic; `PRes` captures all three.  The platform size type `usize`
is modeled as 64 bits wide.
-/

set_option maxHeartbeats 1600000

namespace Defmt

/-- Outcome of running a fallible Rust function: a value, a returned error
message (`Result::Err` / propagated `?`), or an uncatchable panic. -/
inductive PRes (α : Type) where
  | panicked
  | error (msg : String)
  | ok (val : α)
deriving DecidableEq, Repr

/-- The char code of a left brace (written by code to keep string literals free
of raw braces). -/
def lbrace : Char := Char.ofNat 123

/-- The char code of a right brace. -/
def rbrace : Char := Char.ofNat 125

/-- A Rust string literal as a list of chars. -/
def tok (s : String) : List Char := s.data

/-- Byte length of a modeled string: the sum of its chars' UTF-8 sizes
(Rust `str::len`). -/
def utf8Len (s : List Char) : Nat := (s.map Char.utf8Size).sum

/-- Models splitting a Rust `&str` at byte index `n` (`(&s[..n], &s[n..])`):
returns the chars covering exactly `n` bytes and the rest, or `none` when `n`
overruns the string or falls inside a multi-byte character — exactly the cases
in which Rust byte-slicing panics. -/
def takeBytes (s : List Char) (n : Nat) : Option (List Char × List Char) :=
  if n = 0 then some ([], s)
  else
    match s with
    | [] => none
    | c :: rest =>
      if c.utf8Size ≤ n then
        match takeBytes rest (n - c.utf8Size) with
        | some (a, b) => some (c :: a, b)
        | none => none
      else none

/-- lib.rs `is_digit`: `c.unwrap_or('\0')` is an ASCII decimal digit. -/
def is_digit (c : Option Char) : Bool :=
  decide ('0' ≤ c.getD (Char.ofNat 0) ∧ c.getD (Char.ofNat 0) ≤ '9')

/-- `is_digit` on a present char. -/
def isd (c : Char) : Bool := is_digit (some c)

/-- Decimal value of a digit run (big-endian fold, the value Rust's integer
`FromStr` computes). -/
def digitsToNat (cs : List Char) : Nat :=
  cs.foldl (fun a c => a * 10 + (c.toNat - 48)) 0

/-- Models Rust `str::parse::<uN>()` on the slices this parser feeds it (runs
of ASCII digits): fails on an empty slice, on a non-digit char, and when the
value reaches `limit` (Rust: integer overflow of the target type). -/
def rustParseUInt (limit : Nat) (cs : List Char) : Option Nat :=
  if cs = [] then none
  else if cs.all isd then
    if digitsToNat cs < limit then some (digitsToNat cs) else none
  else none

/-- First value that does not fit in the 64-bit `usize` model. -/
def USIZE_LIMIT : Nat := 2 ^ 64

/-- First value that does not fit in `u8`. -/
def U8_LIMIT : Nat := 2 ^ 8

/-- Models Rust `Iterator::position` / `str::find` on our char lists: index of
the first char satisfying `p`.  (At every call site the chars before the found
index are ASCII, so the returned char index coincides with Rust's byte
index.) -/
def position (p : Char → Bool) : List Char → Option Nat
  | [] => none
  | c :: cs => if p c then some 0 else (position p cs).map (fun n => n + 1)

/-- lib.rs `EOF` message. -/
def EOF : String := "expected `\x7d` but string was terminated"

/-- lib.rs `parse_usize`: optional leading decimal index, returning the value
and the number of chars consumed. -/
def parse_usize (s : List Char) : PRes (Option (Nat × Nat)) :=
  if is_digit s.head? then
    match position (fun c => !isd c) s with
    | some endPos =>
      match rustParseUInt USIZE_LIMIT (s.take endPos) with
      | some x => .ok (some (x, endPos))
      | none => .error "position index must fit in `usize`"
    | none => .error EOF
  else .ok none

/-- lib.rs `parse_range`: the bit-range sub-grammar `start..end`.  The
`take_while` over bytes in the source agrees with `takeWhile isd` over chars
because a digit byte is exactly a digit char and the lead byte of a multi-byte
char is never a digit.  `&s[start_digits..start_digits + 2]` is the byte slice
modeled by `takeBytes` — `none` there is the source's panic. -/
def parse_range (s : List Char) : PRes (Option ((Nat × Nat) × Nat)) :=
  let start_digits := (s.takeWhile isd).length
  match rustParseUInt U8_LIMIT (s.takeWhile isd) with
  | none => .ok none
  | some rstart =>
    match takeBytes (s.drop start_digits) 2 with
    | none => .panicked
    | some (two, after) =>
      if two = ['.', '.'] then
        let end_digits := (after.takeWhile isd).length
        match rustParseUInt U8_LIMIT (after.takeWhile isd) with
        | none => .ok none
        | some rend =>
          if rend ≤ rstart then .ok none
          else if 32 ≤ rstart ∨ 32 ≤ rend then .ok none
          else .ok (some ((rstart, rend), start_digits + end_digits + 2))
      else .ok none

/-- lib.rs `Type` (named `Ty` here because `Type` is a Lean keyword).
`BitField` carries the half-open range's endpoints. -/
inductive Ty where
  | BitField (rstart rend : Nat)
  | Bool
  | Format
  | I8
  | I16
  | I32
  | Isize
  | Str
  | IStr
  | U8
  | U16
  | U24
  | U32
  | Usize
  | Slice
  | Array (len : Nat)
  | F32
deriving DecidableEq, Repr

/-- lib.rs `Parameter`: the public output unit.  `span` is the half-open byte
interval (start, end). -/
structure Parameter where
  index : Nat
  ty : Ty
  span : Nat × Nat
deriving DecidableEq, Repr

/-- lib.rs `Param`: a placeholder before index resolution. -/
structure Param where
  index : Option Nat
  ty : Ty
  span : Nat × Nat
deriving DecidableEq, Repr

/-- Token `"?\x7d"`. -/
def FMT : List Char := ['?', rbrace]

/-- Token `"str\x7d"`. -/
def STR : List Char := ['s', 't', 'r', rbrace]

/-- Token `"istr\x7d"`. -/
def ISTR : List Char := ['i', 's', 't', 'r', rbrace]

/-- Token `"u8\x7d"`. -/
def U8 : List Char := ['u', '8', rbrace]

/-- Token `"u16\x7d"`. -/
def U16 : List Char := ['u', '1', '6', rbrace]

/-- Token `"u24\x7d"`. -/
def U24 : List Char := ['u', '2', '4', rbrace]

/-- Token `"u32\x7d"`. -/
def U32 : List Char := ['u', '3', '2', rbrace]

/-- Token `"f32\x7d"`. -/
def F32 : List Char := ['f', '3', '2', rbrace]

/-- Token `"i8\x7d"`. -/
def I8 : List Char := ['i', '8', rbrace]

/-- Token `"i16\x7d"`. -/
def I16 : List Char := ['i', '1', '6', rbrace]

/-- Token `"i32\x7d"`. -/
def I32 : List Char := ['i', '3', '2', rbrace]

/-- Token `"bool\x7d"`. -/
def BOOL : List Char := ['b', 'o', 'o', 'l', rbrace]

/-- Token `"[u8]\x7d"`. -/
def SLICE : List Char := ['[', 'u', '8', ']', rbrace]

/-- Token `"usize\x7d"`. -/
def USIZE : List Char := ['u', 's', 'i', 'z', 'e', rbrace]

/-- Token `"isize\x7d"`. -/
def ISIZE : List Char := ['i', 's', 'i', 'z', 'e', rbrace]

/-- Token `"[u8;"`. -/
def ARRAY_START : List Char := ['[', 'u', '8', ';']

/-- Rust `str::starts_with` on char lists. -/
def startsWith : List Char → List Char → Bool
  | _, [] => true
  | [], _ :: _ => false
  | c :: cs, p :: ps => if c = p then startsWith cs ps else false

/-- The type-tag resolver: the big `if`/`else if` chain on the text after `:`
(lib.rs lines 139–208), in source order.  Returns the resolved type and the
number of chars consumed after the `:` (all consumed chars are ASCII, so this
is also the byte count). -/
def resolveType (s : List Char) : PRes (Ty × Nat) :=
  if startsWith s FMT then .ok (.Format, FMT.length)
  else if startsWith s STR then .ok (.Str, STR.length)
  else if startsWith s ISTR then .ok (.IStr, ISTR.length)
  else if startsWith s U8 then .ok (.U8, U8.length)
  else if startsWith s U16 then .ok (.U16, U16.length)
  else if startsWith s U24 then .ok (.U24, U24.length)
  else if startsWith s U32 then .ok (.U32, U32.length)
  else if startsWith s F32 then .ok (.F32, F32.length)
  else if startsWith s I8 then .ok (.I8, I8.length)
  else if startsWith s I16 then .ok (.I16, I16.length)
  else if startsWith s I32 then .ok (.I32, I32.length)
  else if startsWith s BOOL then .ok (.Bool, BOOL.length)
  else if startsWith s SLICE then .ok (.Slice, SLICE.length)
  else if startsWith s USIZE then .ok (.Usize, USIZE.length)
  else if startsWith s ISIZE then .ok (.Isize, ISIZE.length)
  else if startsWith s ARRAY_START then
    match position (fun c => !decide (c = ' ')) (s.drop ARRAY_START.length) with
    | none => .error "invalid array specifier"
    | some len_index =>
      match parse_usize ((s.drop ARRAY_START.length).drop len_index) with
      | .panicked => .panicked
      | .error e => .error e
      | .ok none => .error "expected array length literal"
      | .ok (some (len, used)) =>
        if startsWith (((s.drop ARRAY_START.length).drop len_index).drop used)
            [']', rbrace] then
          .ok (.Array len, ARRAY_START.length + len_index + used + 2)
        else .error "missing `]\x7d` after array length"
  else
    match parse_range s with
    | .panicked => .panicked
    | .error e => .error e
    | .ok none => .error "invalid format argument"
    | .ok (some ((a, b), used)) =>
      if startsWith (s.drop used) [rbrace] then .ok (.BitField a b, used + 1)
      else .error "missing `\x7d` after bitfield range"

/-- Whether both types are `BitField` variants (lib.rs line 213). -/
def bothBitField : Ty → Ty → Bool
  | .BitField _ _, .BitField _ _ => true
  | _, _ => false

/-- One previously accepted placeholder conflicts with the current one
(lib.rs lines 212–217): same (optional!) index, different type, and not both
bitfields. -/
def conflictsWith (index : Option Nat) (ty : Ty) (p : Param) : Bool :=
  decide (p.index = index) && !decide (p.ty = ty) && !bothBitField p.ty ty

/-- The error message of lib.rs lines 219–223. -/
def conflictMsg (i : Nat) : String :=
  "argument " ++ Nat.repr i ++ " assigned more than one type"

/-- The incremental type-consistency check (lib.rs lines 210–226): performed
only when the current placeholder carries an explicit index. -/
def typeConflict (params : List Param) (index : Option Nat) (ty : Ty) :
    Option String :=
  match index with
  | some i =>
    if params.any (conflictsWith index ty) then some (conflictMsg i) else none
  | none => none

/-- The body of the scanner's `'\x7b'` arm (lib.rs lines 102–231): `rest` is
the text after the opening brace, `pos` its byte offset (the placeholder's
span start).  Returns the updated placeholder list and the number of chars
consumed from `rest` (all ASCII on every non-error path, hence also bytes). -/
def handlePlaceholder (pos : Nat) (rest : List Char) (params : List Param) :
    PRes (List Param × Nat) :=
  match parse_usize rest with
  | .panicked => .panicked
  | .error e => .error e
  | .ok optIdx =>
    let skip := match optIdx with | some (_, k) => k | none => 0
    let index := optIdx.map Prod.fst
    match rest.drop skip with
    | [] => .error EOF
    | c :: rest2 =>
      if c = lbrace then
        .ok (params, skip + 1)
      else if c = ':' then
        match resolveType rest2 with
        | .panicked => .panicked
        | .error e => .error e
        | .ok (ty, used) =>
          match typeConflict params index ty with
          | some e => .error e
          | none =>
            .ok (params ++
                [{ index := index, ty := ty,
                   span := (pos, pos + (skip + 1 + used + 1)) }],
              skip + 1 + used)
      else .error "`\x7b` must be followed by `:`"

/-- The scanner loop (lib.rs lines 100–250) with explicit state: `pos` is the
byte offset of the head of `rest` in the original input.  `fuel` only bounds
the recursion; every call consumes at least one char, so `fuel = length + 1`
never runs out (the fuel-exhausted value is arbitrary and unreachable). -/
def parseLoop (fuel : Nat) (s : List Char) (pos : Nat) (params : List Param) :
    PRes (List Param) :=
  match fuel with
  | 0 => .panicked
  | fuel + 1 =>
    match s with
    | [] => .ok params
    | c :: rest =>
      if c = lbrace then
        match handlePlaceholder pos rest params with
        | .panicked => .panicked
        | .error e => .error e
        | .ok (params2, consumed) =>
          parseLoop fuel (rest.drop consumed) (pos + 1 + consumed) params2
      else if c = rbrace then
        if rest.head? = some rbrace then parseLoop fuel (rest.drop 1) (pos + 2) params
        else .error "unmatched `\x7d` in format string"
      else if c = '@' then
        .error "format string cannot contain the `@` character"
      else parseLoop fuel rest (pos + c.utf8Size) params

/-- Insertion into the sorted duplicate-free list modeling the `BTreeSet`. -/
def insertSorted (x : Nat) : List Nat → List Nat
  | [] => [x]
  | y :: ys =>
    if x < y then x :: y :: ys
    else if x = y then y :: ys
    else y :: insertSorted x ys

/-- The `while used.contains(&i) i += 1` search (lib.rs lines 264–266), with
fuel.  `used.length + 1` steps always suffice: the loop can step only while
standing on a member of `used`, and those members are distinct. -/
def firstFreeFuel : Nat → List Nat → Nat → Nat
  | 0, _, i => i
  | fuel + 1, used, i =>
    if i ∈ used then firstFreeFuel fuel used (i + 1) else i

/-- The smallest index `≥ i` not in `used` (the source's `while` loop). -/
def firstFree (used : List Nat) (i : Nat) : Nat :=
  firstFreeFuel (used.length + 1) used i

/-- State of `assign_indices`' first loop: the cursor `i`, the `used` set, and
the accumulated output. -/
structure AState where
  i : Nat
  used : List Nat
  parameters : List Parameter
deriving Repr

/-- One iteration of `assign_indices`' first loop (lib.rs lines 260–276).  For
an explicit index the cursor is untouched (the `if let Some(i)` binder shadows
the cursor); for an implicit one the cursor is left at the found value, which
is then inserted into `used`. -/
def assignStep (st : AState) (param : Param) : AState :=
  match param.index with
  | some k =>
    { i := st.i, used := insertSorted k st.used,
      parameters := st.parameters ++
        [{ index := k, ty := param.ty, span := param.span }] }
  | none =>
    { i := firstFree st.used st.i, used := insertSorted (firstFree st.used st.i) st.used,
      parameters := st.parameters ++
        [{ index := firstFree st.used st.i, ty := param.ty, span := param.span }] }

/-- The final contiguity scan (lib.rs lines 278–282): walking the sorted set,
the value at position `k` must be `k`. -/
def contiguousFrom : List Nat → Nat → Bool
  | [], _ => true
  | j :: rest, k => decide (j = k) && contiguousFrom rest (k + 1)

/-- lib.rs `assign_indices`. -/
def assign_indices (params : List Param) : PRes (List Parameter) :=
  if contiguousFrom (params.foldl assignStep ⟨0, [], []⟩).used 0 then
    .ok (params.foldl assignStep ⟨0, [], []⟩).parameters
  else .error "the format string contains unused positions"

/-- lib.rs `parse`: the public entry point. -/
def parse (s : List Char) : PRes (List Parameter) :=
  match parseLoop (s.length + 1) s 0 [] with
  | .panicked => .panicked
  | .error e => .error e
  | .ok params => assign_indices params

/-- Modelled from the spec (§4.3): "the smallest index ≥ cursor not already present in
the set of indices used so far", defined by minimization rather than by the source's
`while` loop. -/
def smallestFreeFrom (used : List Nat) (c : Nat) : Nat :=
  Nat.find (show ∃ n, c ≤ n ∧ n ∉ used from
    ⟨c + used.sum + 1, by omega, fun hmem =>
      absurd (List.single_le_sum (fun x _ => Nat.zero_le x) _ hmem) (by omega)⟩)

/-- Modelled from the spec (§4.3, implicit index allocation): "maintain a cursor
starting at 0; for each placeholder lacking an explicit index, assign the smallest
index ≥ cursor not already present in the set of indices used so far, then advance the
cursor past it."  Returns the sequence of assigned indices; explicit indices are taken
as written and leave the cursor alone. -/
def specAssign : List Param → Nat → List Nat → List Nat
  | [], _, _ => []
  | p :: ps, cursor, used =>
    match p.index with
    | some k => k :: specAssign ps cursor (k :: used)
    | none =>
      smallestFreeFrom used cursor ::
        specAssign ps (smallestFreeFrom used cursor + 1) (smallestFreeFrom used cursor :: used)

/-! ## Basic facts about digits and byte slicing -/

theorem isd_bounds {c : Char} (h : isd c = true) : '0' ≤ c ∧ c ≤ '9' := by
  simpa [isd, is_digit] using h

theorem isd_utf8Size {c : Char} (h : isd c = true) : c.utf8Size = 1 := by
  have h9 : c ≤ '9' := (isd_bounds h).2
  have hv : c.val ≤ ('9' : Char).val := Char.le_def.mp h9
  have hlit : ('9' : Char).val ≤ UInt32.ofNatCore 127 Char.utf8Size.proof_1 := by decide
  rw [Char.utf8Size]
  split
  · rfl
  · next hcon => exact absurd (Nat.le_trans hv hlit) hcon

theorem isd_ne {c x : Char} (h : isd c = true) (hx : isd x = false) : c ≠ x := by
  intro e
  subst e
  rw [h] at hx
  cases hx

theorem takeWhile_digits {ds rest : List Char} (h : ∀ c ∈ ds, isd c = true)
    (hr : is_digit rest.head? = false) : (ds ++ rest).takeWhile isd = ds := by
  induction ds with
  | nil =>
    simp only [List.nil_append]
    cases rest with
    | nil => rfl
    | cons x xs => rw [List.takeWhile_cons, show isd x = false from hr]; simp
  | cons d ds ih =>
    rw [List.cons_append, List.takeWhile_cons, h d (by simp)]
    simp only [if_true]
    rw [ih (fun c hc => h c (by simp [hc]))]

theorem position_digits {ds rest : List Char} (h : ∀ c ∈ ds, isd c = true) :
    position (fun c => !isd c) (ds ++ rest) =
      (position (fun c => !isd c) rest).map (fun n => ds.length + n) := by
  induction ds with
  | nil => simp [Option.map_id']
  | cons d ds ih =>
    rw [List.cons_append, position, h d (by simp)]
    simp only [Bool.not_true]
    rw [if_neg (by simp)]
    rw [ih (fun c hc => h c (by simp [hc]))]
    cases position (fun c => !isd c) rest
    · simp
    · simp
      omega

theorem position_nondigit_head {x : Char} {rest : List Char} (hx : isd x = false) :
    position (fun c => !isd c) (x :: rest) = some 0 := by
  rw [position, hx]
  simp

theorem parse_usize_digits {ds rest : List Char} {x : Char} (hne : ds ≠ [])
    (h : ∀ c ∈ ds, isd c = true) (hx : is_digit (x :: rest).head? = false) :
    parse_usize (ds ++ x :: rest) =
      if digitsToNat ds < USIZE_LIMIT then PRes.ok (some (digitsToNat ds, ds.length))
      else PRes.error "position index must fit in `usize`" := by
  obtain ⟨d, ds', rfl⟩ : ∃ d ds', ds = d :: ds' := by
    cases ds with
    | nil => exact absurd rfl hne
    | cons a b => exact ⟨a, b, rfl⟩
  have hhead : is_digit ((d :: ds') ++ x :: rest).head? = true := by
    simpa using h d (by simp)
  rw [parse_usize, if_pos hhead]
  have hx' : isd x = false := by simpa using hx
  rw [position_digits h, position_nondigit_head hx']
  simp only [Option.map_some']
  have htake : ((d :: ds') ++ x :: rest).take ((d :: ds').length + 0) = d :: ds' := by
    simpa using List.take_left (d :: ds') (x :: rest)
  rw [htake, rustParseUInt, if_neg hne, if_pos (List.all_eq_true.mpr h)]
  by_cases hv : digitsToNat (d :: ds') < USIZE_LIMIT <;> simp [hv]

theorem parse_usize_nondigit {s : List Char} (h : is_digit s.head? = false) :
    parse_usize s = PRes.ok none := by
  rw [parse_usize, if_neg (by simp [h])]

theorem takeBytes_zero (s : List Char) : takeBytes s 0 = some ([], s) := by
  cases s <;> simp [takeBytes]

theorem takeBytes_dots (X : List Char) :
    takeBytes ('.' :: '.' :: X) 2 = some (['.', '.'], X) := by
  simp [takeBytes, takeBytes_zero, show ('.' : Char).utf8Size = 1 from rfl]

/-! ## The bit-range sub-grammar on symbolic digit runs -/

theorem parse_range_digits {da db tail : List Char} (hane : da ≠ [])
    (ha : ∀ c ∈ da, isd c = true) (hbne : db ≠ []) (hb : ∀ c ∈ db, isd c = true)
    (ht : is_digit tail.head? = false) :
    parse_range (da ++ '.' :: '.' :: (db ++ tail)) =
      PRes.ok
        (if digitsToNat da < digitsToNat db ∧ digitsToNat da < 32 ∧ digitsToNat db < 32
         then some ((digitsToNat da, digitsToNat db), da.length + db.length + 2)
         else none) := by
  have hdot : isd '.' = false := by decide
  have htw : (da ++ '.' :: '.' :: (db ++ tail)).takeWhile isd = da := takeWhile_digits ha hdot
  have htw2 : (db ++ tail).takeWhile isd = db := takeWhile_digits hb ht
  have hdrop : (da ++ '.' :: '.' :: (db ++ tail)).drop da.length = '.' :: '.' :: (db ++ tail) :=
    List.drop_left da _
  have hpa : rustParseUInt U8_LIMIT da =
      if digitsToNat da < 256 then some (digitsToNat da) else none := by
    rw [rustParseUInt, if_neg hane, if_pos (List.all_eq_true.mpr ha)]; rfl
  have hpb : rustParseUInt U8_LIMIT db =
      if digitsToNat db < 256 then some (digitsToNat db) else none := by
    rw [rustParseUInt, if_neg hbne, if_pos (List.all_eq_true.mpr hb)]; rfl
  simp only [parse_range, htw, hdrop, takeBytes_dots, htw2, hpa, hpb]
  by_cases h256a : digitsToNat da < 256
  · by_cases h256b : digitsToNat db < 256
    · simp only [if_pos h256a, if_pos h256b]
      by_cases hba : digitsToNat db ≤ digitsToNat da
      · have hcf : ¬(digitsToNat da < digitsToNat db ∧ digitsToNat da < 32 ∧
            digitsToNat db < 32) := by rintro ⟨hlt, -, -⟩; omega
        simp [hba, hcf]
      · rw [if_neg hba]
        by_cases h32 : 32 ≤ digitsToNat da ∨ 32 ≤ digitsToNat db
        · have hcf : ¬(digitsToNat da < digitsToNat db ∧ digitsToNat da < 32 ∧
              digitsToNat db < 32) := by
            rintro ⟨-, ha32, hb32⟩
            rcases h32 with h | h <;> omega
          simp [h32, hcf]
        · have hcf : digitsToNat da < digitsToNat db ∧ digitsToNat da < 32 ∧
              digitsToNat db < 32 := by
            push_neg at h32 hba
            exact ⟨hba, h32.1, h32.2⟩
          simp [h32, hba, hcf]
    · have hcf : ¬(digitsToNat da < digitsToNat db ∧ digitsToNat da < 32 ∧
          digitsToNat db < 32) := by rintro ⟨-, -, h32⟩; omega
      simp [h256a, h256b, hcf]
  · have hcf : ¬(digitsToNat da < digitsToNat db ∧ digitsToNat da < 32 ∧
        digitsToNat db < 32) := by rintro ⟨-, h32, -⟩; omega
    simp [h256a, hcf]

/-! ## Scanner, resolver and assigner facts -/

theorem startsWith_digit_head {c t : Char} {s ts : List Char} (h : isd c = true)
    (ht : isd t = false) : startsWith (c :: s) (t :: ts) = false := by
  simp [startsWith, isd_ne h ht]

theorem resolveType_digit {c : Char} {s : List Char} (h : isd c = true) :
    resolveType (c :: s) =
      match parse_range (c :: s) with
      | .panicked => .panicked
      | .error e => .error e
      | .ok none => .error "invalid format argument"
      | .ok (some ((a, b), used)) =>
        if startsWith ((c :: s).drop used) [rbrace] then .ok (.BitField a b, used + 1)
        else .error "missing `\x7d` after bitfield range" := by
  have h01 : startsWith (c :: s) FMT = false := startsWith_digit_head h (by decide)
  have h02 : startsWith (c :: s) STR = false := startsWith_digit_head h (by decide)
  have h03 : startsWith (c :: s) ISTR = false := startsWith_digit_head h (by decide)
  have h04 : startsWith (c :: s) U8 = false := startsWith_digit_head h (by decide)
  have h05 : startsWith (c :: s) U16 = false := startsWith_digit_head h (by decide)
  have h06 : startsWith (c :: s) U24 = false := startsWith_digit_head h (by decide)
  have h07 : startsWith (c :: s) U32 = false := startsWith_digit_head h (by decide)
  have h08 : startsWith (c :: s) F32 = false := startsWith_digit_head h (by decide)
  have h09 : startsWith (c :: s) I8 = false := startsWith_digit_head h (by decide)
  have h10 : startsWith (c :: s) I16 = false := startsWith_digit_head h (by decide)
  have h11 : startsWith (c :: s) I32 = false := startsWith_digit_head h (by decide)
  have h12 : startsWith (c :: s) BOOL = false := startsWith_digit_head h (by decide)
  have h13 : startsWith (c :: s) SLICE = false := startsWith_digit_head h (by decide)
  have h14 : startsWith (c :: s) USIZE = false := startsWith_digit_head h (by decide)
  have h15 : startsWith (c :: s) ISIZE = false := startsWith_digit_head h (by decide)
  have h16 : startsWith (c :: s) ARRAY_START = false := startsWith_digit_head h (by decide)
  simp only [resolveType, h01, h02, h03, h04, h05, h06, h07, h08, h09, h10, h11, h12,
    h13, h14, h15, h16, Bool.false_eq_true, if_false]

theorem parseLoop_nil {fuel pos : Nat} {params : List Param} (h : fuel ≠ 0) :
    parseLoop fuel [] pos params = PRes.ok params := by
  cases fuel with
  | zero => exact absurd rfl h
  | succ n => rfl

theorem handlePlaceholder_colon (pos : Nat) (X : List Char) (params : List Param) :
    handlePlaceholder pos (':' :: X) params =
      match resolveType X with
      | .panicked => .panicked
      | .error e => .error e
      | .ok (ty, used) =>
        match typeConflict params none ty with
        | some e => .error e
        | none =>
          .ok (params ++ [{ index := none, ty := ty, span := (pos, pos + (0 + 1 + used + 1)) }],
            0 + 1 + used) := by
  rfl

end Defmt

namespace Defmt

theorem assign_indices_implicit_singleton (ty : Ty) (span : Nat × Nat) :
    assign_indices [{ index := none, ty := ty, span := span }] =
      PRes.ok [{ index := 0, ty := ty, span := span }] := rfl

theorem bitrange_parse_eq (da db : List Char) (hane : da ≠ []) (hbne : db ≠ [])
    (ha : ∀ c ∈ da, isd c = true) (hb : ∀ c ∈ db, isd c = true) :
    parse (tok "\x7b:" ++ da ++ tok ".." ++ db ++ [rbrace]) =
      (if digitsToNat da < digitsToNat db ∧ digitsToNat da < 32 ∧ digitsToNat db < 32
       then PRes.ok [{ index := 0, ty := Ty.BitField (digitsToNat da) (digitsToNat db),
                       span := (0, da.length + db.length + 5) }]
       else PRes.error "invalid format argument") := by
  obtain ⟨d, da', rfl⟩ : ∃ d da', da = d :: da' := by
    cases da with
    | nil => exact absurd rfl hane
    | cons a b => exact ⟨a, b, rfl⟩
  have hs : tok "\x7b:" ++ (d :: da') ++ tok ".." ++ db ++ [rbrace] =
      lbrace :: ':' :: (d :: (da' ++ '.' :: '.' :: (db ++ [rbrace]))) := by
    rw [show tok "\x7b:" = [lbrace, ':'] from rfl, show tok ".." = ['.', '.'] from rfl]
    simp
  rw [hs]
  have hpr := @parse_range_digits (d :: da') db [rbrace] hane ha hbne hb (by decide)
  rw [List.cons_append] at hpr
  have hrt := @resolveType_digit d (da' ++ '.' :: '.' :: (db ++ [rbrace]))
    (ha d (by simp))
  have hdropR : (d :: (da' ++ '.' :: '.' :: (db ++ [rbrace]))).drop
      ((d :: da').length + db.length + 2) = [rbrace] := by
    have hshape : d :: (da' ++ '.' :: '.' :: (db ++ [rbrace])) =
        ((d :: da') ++ '.' :: '.' :: db) ++ [rbrace] := by simp
    have hL : (d :: da').length + db.length + 2 = ((d :: da') ++ '.' :: '.' :: db).length := by
      simp
      omega
    rw [hshape, hL, List.drop_left]
  have hres : resolveType (d :: (da' ++ '.' :: '.' :: (db ++ [rbrace]))) =
      (if digitsToNat (d :: da') < digitsToNat db ∧ digitsToNat (d :: da') < 32 ∧
          digitsToNat db < 32
       then PRes.ok (Ty.BitField (digitsToNat (d :: da')) (digitsToNat db),
              (d :: da').length + db.length + 3)
       else PRes.error "invalid format argument") := by
    rw [hrt, hpr]
    by_cases hP : digitsToNat (d :: da') < digitsToNat db ∧ digitsToNat (d :: da') < 32 ∧
        digitsToNat db < 32
    · simp only [if_pos hP, hdropR]
      simp [startsWith, show ((d :: da').length + db.length + 2 + 1 =
        (d :: da').length + db.length + 3) from by omega]
    · simp only [if_neg hP]
  simp only [parse]
  have hlen : (lbrace :: ':' :: (d :: (da' ++ '.' :: '.' :: (db ++ [rbrace])))).length =
      (d :: da').length + db.length + 5 := by
    simp
    omega
  rw [hlen, parseLoop]
  simp only [eq_self_iff_true, if_true]
  rw [handlePlaceholder_colon, hres]
  by_cases hP : digitsToNat (d :: da') < digitsToNat db ∧ digitsToNat (d :: da') < 32 ∧
      digitsToNat db < 32
  · simp only [if_pos hP]
    have hdropnil : (':' :: (d :: (da' ++ '.' :: '.' :: (db ++ [rbrace])))).drop
        (0 + 1 + ((d :: da').length + db.length + 3)) = [] := by
      apply List.drop_eq_nil_of_le
      simp
      omega
    have hloopnil : ∀ (pos : Nat) (params : List Param),
        parseLoop ((d :: da').length + db.length + 5) [] pos params = PRes.ok params :=
      fun _ _ => parseLoop_nil (by omega)
    simp only [typeConflict, hdropnil, hloopnil, assign_indices_implicit_singleton,
      List.nil_append]
    have harith : 0 + (0 + 1 + ((d :: da').length + db.length + 3) + 1) =
        (d :: da').length + db.length + 5 := by omega
    rw [harith]
  · simp only [if_neg hP]

theorem array_overflow_parse_eq (ds : List Char) (hne : ds ≠ []) (h : ∀ c ∈ ds, isd c = true)
    (hov : USIZE_LIMIT ≤ digitsToNat ds) :
    parse (tok "\x7b:[u8; " ++ ds ++ tok "]\x7d") =
      PRes.error "position index must fit in `usize`" := by
  obtain ⟨d, ds', rfl⟩ : ∃ d ds', ds = d :: ds' := by
    cases ds with
    | nil => exact absurd rfl hne
    | cons a b => exact ⟨a, b, rfl⟩
  have hs : tok "\x7b:[u8; " ++ (d :: ds') ++ tok "]\x7d" =
      lbrace :: ':' :: ('[' :: 'u' :: '8' :: ';' :: ' ' :: (d :: (ds' ++ [']', rbrace]))) := by
    rw [show tok "\x7b:[u8; " = [lbrace, ':', '[', 'u', '8', ';', ' '] from rfl,
        show tok "]\x7d" = [']', rbrace] from rfl]
    simp
  rw [hs]
  have hdnotspace : decide (d = ' ') = false := by
    simp [isd_ne (h d (by simp)) (show isd ' ' = false from by decide)]
  have hpos : position (fun c => !decide (c = ' ')) (' ' :: (d :: (ds' ++ [']', rbrace]))) =
      some 1 := by
    rw [position]
    simp only [show (!decide ((' ' : Char) = ' ')) = false from by decide,
      Bool.false_eq_true, if_false]
    rw [position]
    simp [hdnotspace]
  have hpu : parse_usize (d :: (ds' ++ [']', rbrace])) =
      PRes.error "position index must fit in `usize`" := by
    have hshape : d :: (ds' ++ [']', rbrace]) = (d :: ds') ++ ']' :: [rbrace] := by simp
    rw [hshape, parse_usize_digits hne h (by decide), if_neg (by omega)]
  have hrt : resolveType ('[' :: 'u' :: '8' :: ';' :: ' ' :: (d :: (ds' ++ [']', rbrace]))) =
      PRes.error "position index must fit in `usize`" := by
    simp [resolveType, startsWith, FMT, STR, ISTR, U8, U16, U24, U32, F32, I8, I16, I32,
      BOOL, SLICE, USIZE, ISIZE, ARRAY_START, hpos, hpu,
      show ('[' : Char) ≠ '?' from by decide, show ('[' : Char) ≠ 's' from by decide,
      show ('[' : Char) ≠ 'i' from by decide, show ('[' : Char) ≠ 'u' from by decide,
      show ('[' : Char) ≠ 'f' from by decide, show ('[' : Char) ≠ 'b' from by decide,
      show (';' : Char) ≠ ']' from by decide]
  simp only [parse]
  have hlen : (lbrace :: ':' :: ('[' :: 'u' :: '8' :: ';' :: ' ' ::
      (d :: (ds' ++ [']', rbrace])))).length = ds'.length + 10 := by
    simp
  rw [hlen, parseLoop]
  simp only [eq_self_iff_true, if_true]
  rw [handlePlaceholder_colon, hrt]

theorem digits_escape_spec (pos : Nat) (params : List Param) (ds rest : List Char)
    (hne : ds ≠ []) (h : ∀ c ∈ ds, isd c = true) (hv : digitsToNat ds < USIZE_LIMIT) :
    handlePlaceholder pos (ds ++ lbrace :: rest) params = PRes.ok (params, ds.length + 1) := by
  have hx : is_digit (lbrace :: rest).head? = false := (by decide : isd lbrace = false)
  have hpu : parse_usize (ds ++ lbrace :: rest) =
      PRes.ok (some (digitsToNat ds, ds.length)) := by
    rw [parse_usize_digits hne h hx, if_pos hv]
  simp only [handlePlaceholder, hpu, List.drop_left]
  simp

theorem typeConflict_none (params : List Param) (ty : Ty) :
    typeConflict params none ty = none := rfl

theorem conflictsWith_iff {index : Option Nat} {ty : Ty} {p : Param} :
    conflictsWith index ty p = true ↔
      p.index = index ∧ p.ty ≠ ty ∧ bothBitField p.ty ty = false := by
  simp [conflictsWith, and_assoc]

theorem typeConflict_filter (params : List Param) (i : Nat) (ty : Ty) :
    typeConflict params (some i) ty =
      typeConflict (params.filter (fun p => decide (p.index ≠ none))) (some i) ty := by
  simp only [typeConflict]
  have hany : params.any (conflictsWith (some i) ty) =
      (params.filter (fun p => decide (p.index ≠ none))).any (conflictsWith (some i) ty) := by
    induction params with
    | nil => rfl
    | cons p ps ih =>
      by_cases hp : p.index = none
      · have hcw : conflictsWith (some i) ty p = false := by
          simp [conflictsWith, hp]
        simp [List.filter_cons, hp, List.any_cons, hcw, ih]
      · simp [List.filter_cons, hp, List.any_cons, ih]
  rw [hany]

theorem typeConflict_spec (params : List Param) (i : Nat) (ty : Ty) :
    typeConflict params (some i) ty ≠ none ↔
      ∃ p ∈ params, p.index = some i ∧ p.ty ≠ ty ∧ bothBitField p.ty ty = false := by
  simp only [typeConflict]
  by_cases hany : params.any (conflictsWith (some i) ty) = true
  · simp only [hany, if_true]
    constructor
    · intro _
      obtain ⟨p, hp, hcw⟩ := List.any_eq_true.mp hany
      exact ⟨p, hp, conflictsWith_iff.mp hcw⟩
    · intro _
      simp
  · simp only [hany]
    rw [if_neg (by simpa using hany)]
    constructor
    · intro hc
      exact absurd rfl hc
    · rintro ⟨p, hp, h1, h2, h3⟩
      exact absurd (List.any_eq_true.mpr ⟨p, hp, conflictsWith_iff.mpr ⟨h1, h2, h3⟩⟩) hany

theorem typeConflict_msg (params : List Param) (i : Nat) (ty : Ty)
    (h : typeConflict params (some i) ty ≠ none) :
    typeConflict params (some i) ty =
      some ("argument " ++ Nat.repr i ++ " assigned more than one type") := by
  simp only [typeConflict] at h ⊢
  by_cases hany : params.any (conflictsWith (some i) ty) = true
  · simp [hany, conflictMsg]
  · rw [if_neg (by simpa using hany)] at h
    exact absurd rfl h

theorem firstFreeFuel_spec (fuel : Nat) : ∀ (used : List Nat) (i : Nat),
    (∃ j, i ≤ j ∧ j < i + fuel ∧ j ∉ used) →
    i ≤ firstFreeFuel fuel used i ∧ firstFreeFuel fuel used i ∉ used ∧
      ∀ j, i ≤ j → j < firstFreeFuel fuel used i → j ∈ used := by
  induction fuel with
  | zero =>
    rintro used i ⟨j, h1, h2, -⟩
    omega
  | succ f ih =>
    rintro used i ⟨j, h1, h2, h3⟩
    rw [firstFreeFuel]
    by_cases hi : i ∈ used
    · rw [if_pos hi]
      have hji : j ≠ i := fun e => h3 (e ▸ hi)
      have hrec := ih used (i + 1) ⟨j, by omega, by omega, h3⟩
      refine ⟨by omega, hrec.2.1, ?_⟩
      intro k hk1 hk2
      by_cases hk : k = i
      · exact hk ▸ hi
      · exact hrec.2.2 k (by omega) hk2
    · rw [if_neg hi]
      exact ⟨le_refl i, hi, fun j hj1 hj2 => absurd hj1 (by omega)⟩

theorem exists_free_in_window (used : List Nat) (i : Nat) :
    ∃ j, i ≤ j ∧ j < i + (used.length + 1) ∧ j ∉ used := by
  by_contra hcon
  push_neg at hcon
  have hsub : Finset.Icc i (i + used.length) ⊆ used.toFinset := by
    intro j hj
    rw [Finset.mem_Icc] at hj
    rw [List.mem_toFinset]
    exact hcon j hj.1 (by omega)
  have hcard := Finset.card_le_card hsub
  rw [Nat.card_Icc] at hcard
  have := List.toFinset_card_le used
  omega

theorem firstFree_spec (used : List Nat) (i : Nat) :
    i ≤ firstFree used i ∧ firstFree used i ∉ used ∧
      ∀ j, i ≤ j → j < firstFree used i → j ∈ used :=
  firstFreeFuel_spec _ used i (exists_free_in_window used i)

theorem mem_insertSorted {x y : Nat} {l : List Nat} :
    x ∈ insertSorted y l ↔ x = y ∨ x ∈ l := by
  induction l with
  | nil => simp [insertSorted]
  | cons z zs ih =>
    simp only [insertSorted]
    by_cases h1 : y < z
    · simp [h1, List.mem_cons]
    · by_cases h2 : y = z
      · subst h2
        simp [h1, List.mem_cons]
      · simp [h1, h2, List.mem_cons, ih]
        tauto

theorem smallestFreeFrom_eq {used usedL : List Nat} {i cur : Nat}
    (hmem : ∀ x, x ∈ used ↔ x ∈ usedL) (hle : i ≤ cur)
    (hwin : ∀ m, i ≤ m → m < cur → m ∈ used) :
    smallestFreeFrom usedL cur = firstFree used i := by
  obtain ⟨h1, h2, h3⟩ := firstFree_spec used i
  rw [smallestFreeFrom, Nat.find_eq_iff]
  refine ⟨⟨?_, ?_⟩, ?_⟩
  · by_contra hlt
    push_neg at hlt
    exact h2 (hwin _ h1 hlt)
  · intro hmemL
    exact h2 ((hmem _).mpr hmemL)
  · rintro n hn ⟨hcn, hnotin⟩
    exact hnotin ((hmem _).mp (h3 n (le_trans hle hcn) hn))

theorem assign_foldl_spec : ∀ (params : List Param) (st : AState) (usedL : List Nat)
    (cur : Nat), (∀ x, x ∈ st.used ↔ x ∈ usedL) → st.i ≤ cur →
    (∀ m, st.i ≤ m → m < cur → m ∈ st.used) →
    ((params.foldl assignStep st).parameters).map Parameter.index =
      st.parameters.map Parameter.index ++ specAssign params cur usedL := by
  intro params
  induction params with
  | nil =>
    intro st usedL cur h1 h2 h3
    simp [specAssign]
  | cons p ps ih =>
    intro st usedL cur h1 h2 h3
    rw [List.foldl_cons]
    cases hp : p.index with
    | some k =>
      have hstep : assignStep st p =
          ⟨st.i, insertSorted k st.used, st.parameters ++ [⟨k, p.ty, p.span⟩]⟩ := by
        simp [assignStep, hp]
      rw [hstep]
      have hrec := ih ⟨st.i, insertSorted k st.used, st.parameters ++ [⟨k, p.ty, p.span⟩]⟩
        (k :: usedL) cur
        (fun x => by simp only [mem_insertSorted, List.mem_cons]; rw [h1 x])
        h2
        (fun m hm1 hm2 => mem_insertSorted.mpr (Or.inr (h3 m hm1 hm2)))
      rw [hrec]
      simp [specAssign, hp]
    | none =>
      have hv : smallestFreeFrom usedL cur = firstFree st.used st.i :=
        smallestFreeFrom_eq h1 h2 h3
      have hstep : assignStep st p =
          ⟨firstFree st.used st.i, insertSorted (firstFree st.used st.i) st.used,
            st.parameters ++ [⟨firstFree st.used st.i, p.ty, p.span⟩]⟩ := by
        simp [assignStep, hp]
      rw [hstep]
      have hrec := ih
        ⟨firstFree st.used st.i, insertSorted (firstFree st.used st.i) st.used,
          st.parameters ++ [⟨firstFree st.used st.i, p.ty, p.span⟩]⟩
        (firstFree st.used st.i :: usedL) (firstFree st.used st.i + 1)
        (fun x => by simp only [mem_insertSorted, List.mem_cons]; rw [h1 x])
        (Nat.le_succ _)
        (fun m hm1 hm2 => mem_insertSorted.mpr (Or.inl (Nat.le_antisymm (Nat.lt_succ_iff.mp hm2) hm1)))
      rw [hrec]
      simp [specAssign, hp, hv]

theorem assign_indices_spec (params : List Param) :
    ((params.foldl assignStep ⟨0, [], []⟩).parameters).map Parameter.index =
      specAssign params 0 [] := by
  have := assign_foldl_spec params ⟨0, [], []⟩ [] 0 (by simp) (le_refl 0)
    (fun m h1 h2 => absurd h2 (by omega))
  simpa using this

theorem assign_foldl_used : ∀ (params : List Param) (st : AState),
    (∀ x, x ∈ st.used ↔ ∃ p ∈ st.parameters, p.index = x) →
    ∀ x, x ∈ (params.foldl assignStep st).used ↔
      ∃ p ∈ (params.foldl assignStep st).parameters, p.index = x := by
  intro params
  induction params with
  | nil => intro st h; exact h
  | cons p ps ih =>
    intro st h
    rw [List.foldl_cons]
    apply ih
    intro x
    cases hp : p.index with
    | some k =>
      have hstep : assignStep st p =
          ⟨st.i, insertSorted k st.used, st.parameters ++ [⟨k, p.ty, p.span⟩]⟩ := by
        simp [assignStep, hp]
      rw [hstep]
      simp only [mem_insertSorted]
      constructor
      · rintro (rfl | hx)
        · exact ⟨⟨x, p.ty, p.span⟩, by simp, rfl⟩
        · obtain ⟨q, hq, hqi⟩ := (h x).mp hx
          exact ⟨q, by simp [hq], hqi⟩
      · rintro ⟨q, hq, hqi⟩
        rw [List.mem_append] at hq
        rcases hq with hq | hq
        · exact Or.inr ((h x).mpr ⟨q, hq, hqi⟩)
        · simp only [List.mem_singleton] at hq
          subst hq
          exact Or.inl hqi.symm
    | none =>
      have hstep : assignStep st p =
          ⟨firstFree st.used st.i, insertSorted (firstFree st.used st.i) st.used,
            st.parameters ++ [⟨firstFree st.used st.i, p.ty, p.span⟩]⟩ := by
        simp [assignStep, hp]
      rw [hstep]
      simp only [mem_insertSorted]
      constructor
      · rintro (rfl | hx)
        · exact ⟨⟨firstFree st.used st.i, p.ty, p.span⟩, by simp, rfl⟩
        · obtain ⟨q, hq, hqi⟩ := (h x).mp hx
          exact ⟨q, by simp [hq], hqi⟩
      · rintro ⟨q, hq, hqi⟩
        rw [List.mem_append] at hq
        rcases hq with hq | hq
        · exact Or.inr ((h x).mpr ⟨q, hq, hqi⟩)
        · simp only [List.mem_singleton] at hq
          subst hq
          exact Or.inl hqi.symm

theorem contiguousFrom_eq : ∀ (l : List Nat) (k : Nat), contiguousFrom l k = true →
    l = List.range' k l.length := by
  intro l
  induction l with
  | nil => intro k _; rfl
  | cons j rest ih =>
    intro k h
    simp only [contiguousFrom, Bool.and_eq_true, decide_eq_true_eq] at h
    obtain ⟨rfl, h2⟩ := h
    rw [List.length_cons, List.range'_succ]
    rw [← ih (j + 1) h2]

theorem parse_index_downward_closed (s : List Char) (ps : List Parameter) (hok : parse s = PRes.ok ps) :
    ∀ p ∈ ps, ∀ j, j < p.index → ∃ q ∈ ps, q.index = j := by
  intro p hp j hj
  rcases hloop : parseLoop (s.length + 1) s 0 [] with _ | e | params
  · rw [parse, hloop] at hok
    cases hok
  · rw [parse, hloop] at hok
    cases hok
  · rw [parse, hloop] at hok
    simp only [assign_indices] at hok
    by_cases hc : contiguousFrom (params.foldl assignStep ⟨0, [], []⟩).used 0 = true
    · rw [if_pos hc] at hok
      have hps : (params.foldl assignStep ⟨0, [], []⟩).parameters = ps := by
        cases hok
        rfl
      have hused := assign_foldl_used params ⟨0, [], []⟩ (by simp)
      have hrange := contiguousFrom_eq _ 0 hc
      have hpidx : p.index ∈ (params.foldl assignStep ⟨0, [], []⟩).used :=
        (hused p.index).mpr ⟨p, hps ▸ hp, rfl⟩
      have hplt : p.index < (params.foldl assignStep ⟨0, [], []⟩).used.length := by
        rw [hrange] at hpidx
        rw [List.mem_range'_1] at hpidx
        omega
      have hjmem : j ∈ (params.foldl assignStep ⟨0, [], []⟩).used := by
        rw [hrange, List.mem_range'_1]
        omega
      obtain ⟨q, hq, hqi⟩ := (hused j).mp hjmem
      exact ⟨q, hps ▸ hq, hqi⟩
    · rw [if_neg hc] at hok
      cases hok

theorem utf8Len_nil : utf8Len [] = 0 := rfl

theorem utf8Len_cons (c : Char) (l : List Char) :
    utf8Len (c :: l) = c.utf8Size + utf8Len l := by
  simp [utf8Len]

theorem utf8Len_append (a b : List Char) : utf8Len (a ++ b) = utf8Len a + utf8Len b := by
  simp [utf8Len]

theorem utf8Len_ascii {l : List Char} (h : ∀ c ∈ l, c.utf8Size = 1) :
    utf8Len l = l.length := by
  induction l with
  | nil => rfl
  | cons c cs ih =>
    rw [utf8Len_cons, h c (by simp), ih (fun x hx => h x (by simp [hx])), List.length_cons]
    omega

theorem utf8Len_digits {l : List Char} (h : ∀ c ∈ l, isd c = true) : utf8Len l = l.length :=
  utf8Len_ascii (fun c hc => isd_utf8Size (h c hc))

theorem position_spec (p : Char → Bool) : ∀ (s : List Char) (k : Nat),
    position p s = some k → k < s.length ∧ ∀ c ∈ s.take k, p c = false := by
  intro s
  induction s with
  | nil => intro k h; cases h
  | cons c cs ih =>
    intro k h
    rw [position] at h
    by_cases hpc : p c = true
    · rw [if_pos hpc] at h
      cases h
      simp
    · rw [if_neg hpc] at h
      rcases hpos : position p cs with _ | m
      · rw [hpos] at h; cases h
      · rw [hpos] at h
        simp only [Option.map_some'] at h
        cases h
        obtain ⟨h1, h2⟩ := ih m hpos
        refine ⟨by simp; omega, ?_⟩
        intro x hx
        rw [List.take_succ_cons] at hx
        rcases List.mem_cons.mp hx with rfl | hx
        · simpa using hpc
        · exact h2 x hx

theorem parse_usize_ok_some {s : List Char} {v k : Nat}
    (h : parse_usize s = PRes.ok (some (v, k))) :
    k < s.length ∧ ∀ c ∈ s.take k, isd c = true := by
  rw [parse_usize] at h
  split at h
  · split at h
    · split at h
      · next x heq =>
        cases h
        next hpos =>
        obtain ⟨h1, h2⟩ := position_spec _ s k hpos
        exact ⟨h1, fun c hc => by simpa using h2 c hc⟩
      · cases h
    · cases h
  · cases h

theorem takeBytes_spec : ∀ (s : List Char) (n : Nat) (a b : List Char),
    takeBytes s n = some (a, b) → s = a ++ b ∧ utf8Len a = n := by
  intro s
  induction s with
  | nil =>
    intro n a b h
    rw [takeBytes] at h
    by_cases hn : n = 0
    · rw [if_pos hn] at h
      cases h
      exact ⟨rfl, hn.symm⟩
    · rw [if_neg hn] at h
      cases h
  | cons c cs ih =>
    intro n a b h
    rw [takeBytes] at h
    by_cases hn : n = 0
    · rw [if_pos hn] at h
      cases h
      exact ⟨rfl, hn.symm⟩
    · rw [if_neg hn] at h
      by_cases hsz : c.utf8Size ≤ n
      · rw [if_pos hsz] at h
        rcases htb : takeBytes cs (n - c.utf8Size) with _ | ⟨⟨aa, bb⟩⟩
        · rw [htb] at h; cases h
        · rw [htb] at h
          simp only [Option.some.injEq, Prod.mk.injEq] at h
          obtain ⟨rfl, rfl⟩ := h
          obtain ⟨h1, h2⟩ := ih (n - c.utf8Size) aa bb htb
          constructor
          · rw [h1]; rfl
          · rw [utf8Len_cons, h2]; omega
      · rw [if_neg hsz] at h
        cases h

theorem startsWith_take : ∀ {s p : List Char}, startsWith s p = true →
    s.take p.length = p ∧ p.length ≤ s.length := by
  intro s
  induction s with
  | nil =>
    intro p h
    cases p with
    | nil => simp
    | cons x xs => rw [startsWith] at h; cases h
  | cons c cs ih =>
    intro p h
    cases p with
    | nil => simp
    | cons x xs =>
      rw [startsWith] at h
      by_cases hcx : c = x
      · rw [if_pos hcx] at h
        obtain ⟨h1, h2⟩ := ih h
        subst hcx
        refine ⟨?_, by simp; omega⟩
        rw [List.length_cons, List.take_succ_cons, h1]
      · rw [if_neg hcx] at h
        cases h

theorem take_takeWhile (p : Char → Bool) (l : List Char) :
    l.take (l.takeWhile p).length = l.takeWhile p := by
  nth_rewrite 2 [← List.takeWhile_append_dropWhile p l]
  rw [List.take_left]

theorem drop_takeWhile (p : Char → Bool) (l : List Char) :
    l.drop (l.takeWhile p).length = l.dropWhile p := by
  nth_rewrite 2 [← List.takeWhile_append_dropWhile p l]
  rw [List.drop_left]

theorem length_takeWhile (p : Char → Bool) (l : List Char) :
    (l.takeWhile p).length ≤ l.length := by
  have := congrArg List.length (List.takeWhile_append_dropWhile p l)
  simp only [List.length_append] at this
  omega

theorem parse_range_consumed {s : List Char} {a b u : Nat}
    (h : parse_range s = PRes.ok (some ((a, b), u))) :
    u ≤ s.length ∧ utf8Len (s.take u) = u := by
  rw [parse_range] at h
  split at h
  · cases h
  · split at h
    · cases h
    · next two after htb =>
      split at h
      · next hdots =>
        split at h
        · cases h
        · split at h
          · cases h
          · split at h
            · cases h
            · cases h
              subst hdots
              obtain ⟨hsplit, hlen2⟩ := takeBytes_spec _ _ _ _ htb
              rw [drop_takeWhile] at hsplit
              have hs : s = s.takeWhile isd ++ '.' :: '.' :: after := by
                conv_lhs => rw [← List.takeWhile_append_dropWhile isd s]
                rw [hsplit]
                rfl
              have htwd : ∀ c ∈ s.takeWhile isd, isd c = true :=
                fun c hc => List.mem_takeWhile_imp hc
              have htwd2 : ∀ c ∈ after.takeWhile isd, isd c = true :=
                fun c hc => List.mem_takeWhile_imp hc
              constructor
              · have h1 := length_takeWhile isd after
                have h2 : s.length = (s.takeWhile isd).length + 2 + after.length := by
                  conv_lhs => rw [hs]
                  simp
                  omega
                omega
              · have htake : s.take ((s.takeWhile isd).length +
                    (after.takeWhile isd).length + 2) =
                    s.takeWhile isd ++ '.' :: '.' :: after.takeWhile isd := by
                  have hrearr : (s.takeWhile isd).length + (after.takeWhile isd).length + 2 =
                      (s.takeWhile isd).length + (2 + (after.takeWhile isd).length) := by omega
                  rw [hrearr]
                  nth_rewrite 2 [hs]
                  rw [List.take_append]
                  have hdrop2 : ('.' :: '.' :: after).take (2 + (after.takeWhile isd).length) =
                      '.' :: '.' :: after.take (after.takeWhile isd).length := by
                    rw [show 2 + (after.takeWhile isd).length =
                      (after.takeWhile isd).length + 1 + 1 from by omega]
                    rw [List.take_succ_cons, List.take_succ_cons]
                  rw [hdrop2, take_takeWhile]
                rw [htake]
                rw [utf8Len_append, utf8Len_cons, utf8Len_cons,
                  utf8Len_digits htwd, utf8Len_digits htwd2,
                  show ('.' : Char).utf8Size = 1 from rfl]
                omega
      · cases h

theorem resolveType_range_case {s : List Char} {ty : Ty} {used : Nat}
    (h : (match parse_range s with
      | PRes.panicked => PRes.panicked
      | PRes.error e => PRes.error e
      | PRes.ok none => PRes.error "invalid format argument"
      | PRes.ok (some ((a, b), u)) =>
        if startsWith (s.drop u) [rbrace] = true then PRes.ok (Ty.BitField a b, u + 1)
        else PRes.error "missing `\x7d` after bitfield range") = PRes.ok (ty, used)) :
    used ≤ s.length ∧ utf8Len (s.take used) = used ∧
      (s.take used).getLast? = some rbrace := by
  split at h
  · cases h
  · cases h
  · cases h
  · next a b u hpr =>
    split at h
    · next hcl =>
      cases h
      obtain ⟨hu, hutf⟩ := parse_range_consumed hpr
      obtain ⟨htail, hlen2⟩ := startsWith_take hcl
      have htail1 : (s.drop u).take 1 = [rbrace] := by simpa using htail
      have hlen1 : 1 ≤ (s.drop u).length := by simpa using hlen2
      have htk : s.take (u + 1) = s.take u ++ [rbrace] := by
        rw [List.take_add, htail1]
      refine ⟨?_, ?_, ?_⟩
      · rw [List.length_drop] at hlen1
        omega
      · rw [htk, utf8Len_append, hutf]
        have : utf8Len [rbrace] = 1 := by decide
        omega
      · rw [htk, List.getLast?_concat]
    · cases h

theorem resolveType_array_case {s : List Char} {ty : Ty} {used : Nat}
    (harr : startsWith s ARRAY_START = true)
    (h : (match position (fun c => !decide (c = ' ')) (s.drop ARRAY_START.length) with
      | none => PRes.error "invalid array specifier"
      | some len_index =>
        match parse_usize ((s.drop ARRAY_START.length).drop len_index) with
        | PRes.panicked => PRes.panicked
        | PRes.error e => PRes.error e
        | PRes.ok none => PRes.error "expected array length literal"
        | PRes.ok (some (len, used2)) =>
          if startsWith (((s.drop ARRAY_START.length).drop len_index).drop used2)
              ([']', rbrace]) = true then
            PRes.ok (Ty.Array len, ARRAY_START.length + len_index + used2 + 2)
          else PRes.error "missing `]\x7d` after array length") = PRes.ok (ty, used)) :
    used ≤ s.length ∧ utf8Len (s.take used) = used ∧
      (s.take used).getLast? = some rbrace := by
  split at h
  · cases h
  · next len_index hpos =>
    split at h
    · cases h
    · cases h
    · cases h
    · next len used2 hpu =>
      split at h
      · next hcl =>
        cases h
        obtain ⟨htake4, hle4⟩ := startsWith_take harr
        have e1 : s = ARRAY_START ++ s.drop ARRAY_START.length := by
          conv_lhs => rw [← List.take_append_drop ARRAY_START.length s]
          rw [htake4]
        obtain ⟨hpl, hpsp⟩ := position_spec _ _ _ hpos
        have hsp : ∀ c ∈ (s.drop ARRAY_START.length).take len_index, c = ' ' := by
          intro c hc
          have hx := hpsp c hc
          simp at hx
          exact hx
        obtain ⟨hul, hudig⟩ := parse_usize_ok_some hpu
        obtain ⟨htail, hlen2⟩ := startsWith_take hcl
        have htail2 : (((s.drop ARRAY_START.length).drop len_index).drop used2).take 2 =
            [']', rbrace] := by simpa using htail
        have hlen2' : 2 ≤ (((s.drop ARRAY_START.length).drop len_index).drop used2).length := by
          simpa using hlen2
        have hsplen : ((s.drop ARRAY_START.length).take len_index).length = len_index := by
          rw [List.length_take]
          exact Nat.min_eq_left (le_of_lt hpl)
        have hdglen : (((s.drop ARRAY_START.length).drop len_index).take used2).length =
            used2 := by
          rw [List.length_take]
          exact Nat.min_eq_left (le_of_lt hul)
        have htk : s.take (ARRAY_START.length + (len_index + (used2 + 2))) =
            ARRAY_START ++ ((s.drop ARRAY_START.length).take len_index ++
              (((s.drop ARRAY_START.length).drop len_index).take used2 ++ [']', rbrace])) := by
          nth_rewrite 1 [e1]
          rw [List.take_append]
          rw [List.take_add, List.take_add, htail2]
        refine ⟨?_, ?_, ?_⟩
        · simp only [List.length_drop] at hpl hul hlen2'
          omega
        · have harr4 : ARRAY_START.length + len_index + used2 + 2 =
              ARRAY_START.length + (len_index + (used2 + 2)) := by omega
          rw [harr4, htk]
          rw [utf8Len_append, utf8Len_append, utf8Len_append]
          have hA : utf8Len ARRAY_START = ARRAY_START.length := by decide
          have hB : utf8Len ((s.drop ARRAY_START.length).take len_index) = len_index := by
            rw [utf8Len_ascii, hsplen]
            intro c hc
            rw [hsp c hc]
            decide
          have hC : utf8Len (((s.drop ARRAY_START.length).drop len_index).take used2) =
              used2 := by
            rw [utf8Len_digits hudig, hdglen]
          have hD : utf8Len [']', rbrace] = 2 := by decide
          rw [hA, hB, hC, hD]
        · have harr4 : ARRAY_START.length + len_index + used2 + 2 =
              ARRAY_START.length + (len_index + (used2 + 2)) := by omega
          rw [harr4, htk]
          rw [show ([']', rbrace] : List Char) = [']'] ++ [rbrace] from rfl]
          rw [← List.append_assoc, ← List.append_assoc, ← List.append_assoc,
            List.getLast?_concat]
      · cases h

theorem resolveType_token_case {s T : List Char} (hsw : startsWith s T = true)
    (hlen : utf8Len T = T.length) (hlast : T.getLast? = some rbrace) :
    T.length ≤ s.length ∧ utf8Len (s.take T.length) = T.length ∧
      (s.take T.length).getLast? = some rbrace := by
  obtain ⟨htake, hle⟩ := startsWith_take hsw
  exact ⟨hle, by rw [htake, hlen], by rw [htake, hlast]⟩

theorem resolveType_consumed {s : List Char} {ty : Ty} {used : Nat}
    (h : resolveType s = PRes.ok (ty, used)) :
    used ≤ s.length ∧ utf8Len (s.take used) = used ∧
      (s.take used).getLast? = some rbrace := by
  by_cases h01 : startsWith s FMT = true
  · have heq : resolveType s = PRes.ok (Ty.Format, FMT.length) := by
      simp only [resolveType, h01, Bool.false_eq_true, if_false, if_true]
    rw [heq] at h
    cases h
    exact resolveType_token_case h01 (by decide) (by decide)
  · have e01 : startsWith s FMT = false := by simpa using h01
    by_cases h02 : startsWith s STR = true
    · have heq : resolveType s = PRes.ok (Ty.Str, STR.length) := by
        simp only [resolveType, e01, h02, Bool.false_eq_true, if_false, if_true]
      rw [heq] at h
      cases h
      exact resolveType_token_case h02 (by decide) (by decide)
    · have e02 : startsWith s STR = false := by simpa using h02
      by_cases h03 : startsWith s ISTR = true
      · have heq : resolveType s = PRes.ok (Ty.IStr, ISTR.length) := by
          simp only [resolveType, e01, e02, h03, Bool.false_eq_true, if_false, if_true]
        rw [heq] at h
        cases h
        exact resolveType_token_case h03 (by decide) (by decide)
      · have e03 : startsWith s ISTR = false := by simpa using h03
        by_cases h04 : startsWith s U8 = true
        · have heq : resolveType s = PRes.ok (Ty.U8, U8.length) := by
            simp only [resolveType, e01, e02, e03, h04, Bool.false_eq_true, if_false, if_true]
          rw [heq] at h
          cases h
          exact resolveType_token_case h04 (by decide) (by decide)
        · have e04 : startsWith s U8 = false := by simpa using h04
          by_cases h05 : startsWith s U16 = true
          · have heq : resolveType s = PRes.ok (Ty.U16, U16.length) := by
              simp only [resolveType, e01, e02, e03, e04, h05, Bool.false_eq_true, if_false, if_true]
            rw [heq] at h
            cases h
            exact resolveType_token_case h05 (by decide) (by decide)
          · have e05 : startsWith s U16 = false := by simpa using h05
            by_cases h06 : startsWith s U24 = true
            · have heq : resolveType s = PRes.ok (Ty.U24, U24.length) := by
                simp only [resolveType, e01, e02, e03, e04, e05, h06, Bool.false_eq_true, if_false, if_true]
              rw [heq] at h
              cases h
              exact resolveType_token_case h06 (by decide) (by decide)
            · have e06 : startsWith s U24 = false := by simpa using h06
              by_cases h07 : startsWith s U32 = true
              · have heq : resolveType s = PRes.ok (Ty.U32, U32.length) := by
                  simp only [resolveType, e01, e02, e03, e04, e05, e06, h07, Bool.false_eq_true, if_false, if_true]
                rw [heq] at h
                cases h
                exact resolveType_token_case h07 (by decide) (by decide)
              · have e07 : startsWith s U32 = false := by simpa using h07
                by_cases h08 : startsWith s F32 = true
                · have heq : resolveType s = PRes.ok (Ty.F32, F32.length) := by
                    simp only [resolveType, e01, e02, e03, e04, e05, e06, e07, h08, Bool.false_eq_true, if_false, if_true]
                  rw [heq] at h
                  cases h
                  exact resolveType_token_case h08 (by decide) (by decide)
                · have e08 : startsWith s F32 = false := by simpa using h08
                  by_cases h09 : startsWith s I8 = true
                  · have heq : resolveType s = PRes.ok (Ty.I8, I8.length) := by
                      simp only [resolveType, e01, e02, e03, e04, e05, e06, e07, e08, h09, Bool.false_eq_true, if_false, if_true]
                    rw [heq] at h
                    cases h
                    exact resolveType_token_case h09 (by decide) (by decide)
                  · have e09 : startsWith s I8 = false := by simpa using h09
                    by_cases h10 : startsWith s I16 = true
                    · have heq : resolveType s = PRes.ok (Ty.I16, I16.length) := by
                        simp only [resolveType, e01, e02, e03, e04, e05, e06, e07, e08, e09, h10, Bool.false_eq_true, if_false, if_true]
                      rw [heq] at h
                      cases h
                      exact resolveType_token_case h10 (by decide) (by decide)
                    · have e10 : startsWith s I16 = false := by simpa using h10
                      by_cases h11 : startsWith s I32 = true
                      · have heq : resolveType s = PRes.ok (Ty.I32, I32.length) := by
                          simp only [resolveType, e01, e02, e03, e04, e05, e06, e07, e08, e09, e10, h11, Bool.false_eq_true, if_false, if_true]
                        rw [heq] at h
                        cases h
                        exact resolveType_token_case h11 (by decide) (by decide)
                      · have e11 : startsWith s I32 = false := by simpa using h11
                        by_cases h12 : startsWith s BOOL = true
                        · have heq : resolveType s = PRes.ok (Ty.Bool, BOOL.length) := by
                            simp only [resolveType, e01, e02, e03, e04, e05, e06, e07, e08, e09, e10, e11, h12, Bool.false_eq_true, if_false, if_true]
                          rw [heq] at h
                          cases h
                          exact resolveType_token_case h12 (by decide) (by decide)
                        · have e12 : startsWith s BOOL = false := by simpa using h12
                          by_cases h13 : startsWith s SLICE = true
                          · have heq : resolveType s = PRes.ok (Ty.Slice, SLICE.length) := by
                              simp only [resolveType, e01, e02, e03, e04, e05, e06, e07, e08, e09, e10, e11, e12, h13, Bool.false_eq_true, if_false, if_true]
                            rw [heq] at h
                            cases h
                            exact resolveType_token_case h13 (by decide) (by decide)
                          · have e13 : startsWith s SLICE = false := by simpa using h13
                            by_cases h14 : startsWith s USIZE = true
                            · have heq : resolveType s = PRes.ok (Ty.Usize, USIZE.length) := by
                                simp only [resolveType, e01, e02, e03, e04, e05, e06, e07, e08, e09, e10, e11, e12, e13, h14, Bool.false_eq_true, if_false, if_true]
                              rw [heq] at h
                              cases h
                              exact resolveType_token_case h14 (by decide) (by decide)
                            · have e14 : startsWith s USIZE = false := by simpa using h14
                              by_cases h15 : startsWith s ISIZE = true
                              · have heq : resolveType s = PRes.ok (Ty.Isize, ISIZE.length) := by
                                  simp only [resolveType, e01, e02, e03, e04, e05, e06, e07, e08, e09, e10, e11, e12, e13, e14, h15, Bool.false_eq_true, if_false, if_true]
                                rw [heq] at h
                                cases h
                                exact resolveType_token_case h15 (by decide) (by decide)
                              · have e15 : startsWith s ISIZE = false := by simpa using h15
                                by_cases harr : startsWith s ARRAY_START = true
                                · have heq : resolveType s =
                                      (match position (fun c => !decide (c = ' ')) (s.drop ARRAY_START.length) with
                                      | none => PRes.error "invalid array specifier"
                                      | some len_index =>
                                        match parse_usize ((s.drop ARRAY_START.length).drop len_index) with
                                        | PRes.panicked => PRes.panicked
                                        | PRes.error e => PRes.error e
                                        | PRes.ok none => PRes.error "expected array length literal"
                                        | PRes.ok (some (len, used2)) =>
                                          if startsWith (((s.drop ARRAY_START.length).drop len_index).drop used2)
                                              ([']', rbrace]) = true then
                                            PRes.ok (Ty.Array len, ARRAY_START.length + len_index + used2 + 2)
                                          else PRes.error "missing `]\x7d` after array length") := by
                                    simp only [resolveType, e01, e02, e03, e04, e05, e06, e07, e08, e09, e10, e11, e12, e13, e14, e15, harr, Bool.false_eq_true, if_false, if_true]
                                  rw [heq] at h
                                  exact resolveType_array_case harr h
                                · have e16 : startsWith s ARRAY_START = false := by simpa using harr
                                  have heq : resolveType s =
                                      (match parse_range s with
                                      | PRes.panicked => PRes.panicked
                                      | PRes.error e => PRes.error e
                                      | PRes.ok none => PRes.error "invalid format argument"
                                      | PRes.ok (some ((a, b), u)) =>
                                        if startsWith (s.drop u) [rbrace] = true then PRes.ok (Ty.BitField a b, u + 1)
                                        else PRes.error "missing `\x7d` after bitfield range") := by
                                    simp only [resolveType, e01, e02, e03, e04, e05, e06, e07, e08, e09, e10, e11, e12, e13, e14, e15, e16, Bool.false_eq_true, if_false]
                                  rw [heq] at h
                                  exact resolveType_range_case h

theorem take_decomp_colon {rest rest2 : List Char} {sk used2 : Nat} {c : Char}
    (hdrop : rest.drop sk = c :: rest2) :
    rest.take (sk + (1 + used2)) = rest.take sk ++ c :: rest2.take used2 := by
  rw [List.take_add, hdrop]
  rw [show 1 + used2 = used2 + 1 from by omega, List.take_succ_cons]

theorem hp_case_token {rest rest2 : List Char} {sk used2 : Nat}
    (hsklen : sk ≤ rest.length) (hskdig : ∀ c ∈ rest.take sk, isd c = true)
    (hdrop : rest.drop sk = ':' :: rest2)
    (h1 : used2 ≤ rest2.length) (h2 : utf8Len (rest2.take used2) = used2)
    (h3 : (rest2.take used2).getLast? = some rbrace) :
    sk + 1 + used2 ≤ rest.length ∧ utf8Len (rest.take (sk + 1 + used2)) = sk + 1 + used2 ∧
      (rest.take (sk + 1 + used2)).getLast? = some rbrace := by
  have hlen : rest.length = sk + 1 + rest2.length := by
    have := congrArg List.length hdrop
    rw [List.length_drop, List.length_cons] at this
    omega
  have hsk : (rest.take sk).length = sk := by
    rw [List.length_take]
    exact Nat.min_eq_left (by omega)
  have htk : rest.take (sk + 1 + used2) = rest.take sk ++ ':' :: rest2.take used2 := by
    rw [show sk + 1 + used2 = sk + (1 + used2) from by omega]
    exact take_decomp_colon hdrop
  refine ⟨by omega, ?_, ?_⟩
  · rw [htk, utf8Len_append, utf8Len_cons, utf8Len_digits hskdig, hsk, h2,
      show (':' : Char).utf8Size = 1 from rfl]
    omega
  · rw [htk, List.getLast?_append,
      show (':' :: rest2.take used2) = [':'] ++ rest2.take used2 from rfl,
      List.getLast?_append, h3]
    rfl

theorem hp_case_esc {rest rest2 : List Char} {sk : Nat} {c : Char} (hc1 : c.utf8Size = 1)
    (hskdig : ∀ x ∈ rest.take sk, isd x = true)
    (hdrop : rest.drop sk = c :: rest2) :
    sk + 1 ≤ rest.length ∧ utf8Len (rest.take (sk + 1)) = sk + 1 := by
  have hlen : rest.length = sk + 1 + rest2.length := by
    have := congrArg List.length hdrop
    rw [List.length_drop, List.length_cons] at this
    omega
  have hsk : (rest.take sk).length = sk := by
    rw [List.length_take]
    exact Nat.min_eq_left (by omega)
  have htk : rest.take (sk + 1) = rest.take sk ++ [c] := by
    rw [List.take_add, hdrop, List.take_succ_cons, List.take_zero]
  refine ⟨by omega, ?_⟩
  rw [htk, utf8Len_append, utf8Len_digits hskdig, hsk, utf8Len_cons, utf8Len_nil, hc1]

theorem typeConflict_nil (index : Option Nat) (ty : Ty) :
    typeConflict [] index ty = none := by
  cases index <;> simp [typeConflict]

theorem handlePlaceholder_eq_token {rest rest2 : List Char}
    {optIdx : Option (Nat × Nat)} {skip used2 : Nat} {ty : Ty}
    (pos : Nat) (params : List Param)
    (hpu : parse_usize rest = PRes.ok optIdx)
    (hskip : (match optIdx with | some (_, k) => k | none => 0) = skip)
    (hdrop : rest.drop skip = ':' :: rest2)
    (hres : resolveType rest2 = PRes.ok (ty, used2))
    (hconf : typeConflict params (optIdx.map Prod.fst) ty = none) :
    handlePlaceholder pos rest params =
      PRes.ok (params ++
        [{ index := optIdx.map Prod.fst, ty := ty,
           span := (pos, pos + (skip + 1 + used2 + 1)) }], skip + 1 + used2) := by
  rcases optIdx with _ | ⟨v, sk⟩
  · have h0 : skip = 0 := hskip.symm
    subst h0
    simp only [Option.map_none'] at hconf ⊢
    simp only [handlePlaceholder, hpu]
    rw [hdrop]
    simp only [Option.map_none', reduceIte, hres, hconf]
    rw [if_neg (show ¬((':' : Char) = lbrace) from by decide)]
  · have h0 : skip = sk := hskip.symm
    subst h0
    simp only [Option.map_some'] at hconf ⊢
    simp only [handlePlaceholder, hpu]
    rw [hdrop]
    simp only [Option.map_some', reduceIte, hres, hconf]
    rw [if_neg (show ¬((':' : Char) = lbrace) from by decide)]

theorem handlePlaceholder_spec {pos : Nat} {rest : List Char} {params acc : List Param}
    {k : Nat} (h : handlePlaceholder pos rest params = PRes.ok (acc, k)) :
    k ≤ rest.length ∧ utf8Len (rest.take k) = k ∧
      (acc = params ∨ ∃ pr : Param, acc = params ++ [pr] ∧
        pr.span = (pos, pos + (k + 1)) ∧ (rest.take k).getLast? = some rbrace ∧
        handlePlaceholder pos rest [] = PRes.ok ([pr], k)) := by
  simp only [handlePlaceholder] at h
  split at h
  · cases h
  · cases h
  · next optIdx hpu =>
    rcases optIdx with _ | ⟨⟨v, sk⟩⟩
    · simp only [] at h
      split at h
      · cases h
      · next c rest2 hdrop =>
        rw [List.drop_zero] at hdrop
        subst hdrop
        split at h
        · next hlb =>
          subst hlb
          simp only [Option.some.injEq, Prod.mk.injEq, PRes.ok.injEq] at h
          obtain ⟨rfl, rfl⟩ := h
          have hesc := @hp_case_esc (lbrace :: rest2) rest2 0 lbrace
            (show lbrace.utf8Size = 1 from by decide) (by simp) (by simp)
          exact ⟨hesc.1, hesc.2, Or.inl rfl⟩
        · split at h
          · next hcol =>
            subst hcol
            split at h
            · cases h
            · cases h
            · next ty used2 hres =>
              split at h
              · cases h
              · simp only [Option.some.injEq, Prod.mk.injEq, PRes.ok.injEq] at h
                obtain ⟨rfl, rfl⟩ := h
                obtain ⟨hu1, hu2, hu3⟩ := resolveType_consumed hres
                have htok := @hp_case_token (':' :: rest2) rest2 0 used2
                  (by simp) (by simp) (by simp) hu1 hu2 hu3
                refine ⟨htok.1, htok.2.1, Or.inr ⟨_, rfl, rfl, htok.2.2, ?_⟩⟩
                simpa using handlePlaceholder_eq_token pos [] hpu rfl rfl hres
                  (typeConflict_nil _ _)
          · cases h
    · simp only [] at h
      split at h
      · cases h
      · next c rest2 hdrop =>
        obtain ⟨hsklen, hskdig⟩ := parse_usize_ok_some hpu
        split at h
        · next hlb =>
          subst hlb
          simp only [Option.some.injEq, Prod.mk.injEq, PRes.ok.injEq] at h
          obtain ⟨rfl, rfl⟩ := h
          have hesc := hp_case_esc (show lbrace.utf8Size = 1 from by decide) hskdig hdrop
          exact ⟨hesc.1, hesc.2, Or.inl rfl⟩
        · split at h
          · next hcol =>
            subst hcol
            split at h
            · cases h
            · cases h
            · next ty used2 hres =>
              split at h
              · cases h
              · simp only [Option.some.injEq, Prod.mk.injEq, PRes.ok.injEq] at h
                obtain ⟨rfl, rfl⟩ := h
                obtain ⟨hu1, hu2, hu3⟩ := resolveType_consumed hres
                have htok := hp_case_token (le_of_lt hsklen) hskdig hdrop hu1 hu2 hu3
                refine ⟨htok.1, htok.2.1, Or.inr ⟨_, rfl, rfl, htok.2.2, ?_⟩⟩
                simpa using handlePlaceholder_eq_token pos [] hpu rfl hdrop hres
                  (typeConflict_nil _ _)
          · cases h

theorem parseLoop_spans : ∀ (fuel : Nat) (rest : List Char) (pos : Nat)
    (acc out : List Param), rest.length < fuel → parseLoop fuel rest pos acc = PRes.ok out →
    ∀ p ∈ out, p ∈ acc ∨ ∃ pre mid post, rest = pre ++ mid ++ post ∧
      pos + utf8Len pre = p.span.1 ∧ p.span.2 = p.span.1 + utf8Len mid ∧
      p.span.1 < p.span.2 ∧ mid.getLast? = some rbrace ∧
      ∃ inner, mid = lbrace :: inner ∧
        handlePlaceholder p.span.1 (inner ++ post) [] = PRes.ok ([p], inner.length) := by
  intro fuel
  induction fuel with
  | zero =>
    intro rest pos acc out hlen
    omega
  | succ f ih =>
    intro rest pos acc out hlen hok p hp
    cases rest with
    | nil =>
      rw [parseLoop_nil (by omega)] at hok
      cases hok
      exact Or.inl hp
    | cons c rest' =>
      rw [parseLoop] at hok
      by_cases hc1 : c = lbrace
      · rw [if_pos hc1] at hok
        subst hc1
        rcases hhp : handlePlaceholder pos rest' acc with _ | e | ⟨acc2, consumed⟩
        · rw [hhp] at hok; cases hok
        · rw [hhp] at hok; cases hok
        · rw [hhp] at hok
          obtain ⟨hk, hascii, hcase⟩ := handlePlaceholder_spec hhp
          have hlen' : (rest'.drop consumed).length < f := by
            rw [List.length_drop]
            rw [List.length_cons] at hlen
            omega
          have hrec := ih (rest'.drop consumed) (pos + 1 + consumed) acc2 out hlen' hok p hp
          rcases hrec with hin2 | ⟨pre, mid, post, hsplit, hpre, hmid, hlt, hl, hinn⟩
          · rcases hcase with rfl | ⟨pr, rfl, hspan, hlast, heq⟩
            · exact Or.inl hin2
            · rw [List.mem_append] at hin2
              rcases hin2 with hin | hin
              · exact Or.inl hin
              · right
                simp only [List.mem_singleton] at hin
                subst hin
                have hlen2 : (rest'.take consumed).length = consumed := by
                  rw [List.length_take]
                  exact Nat.min_eq_left hk
                refine ⟨[], lbrace :: rest'.take consumed, rest'.drop consumed,
                  by simp, ?_, ?_, ?_, ?_, rest'.take consumed, rfl, ?_⟩
                · rw [hspan]
                  simp [utf8Len_nil]
                · rw [hspan, utf8Len_cons, hascii,
                    show lbrace.utf8Size = 1 from by decide]
                  simp
                  omega
                · rw [hspan]
                  simp
                · rw [show (lbrace :: rest'.take consumed) =
                    [lbrace] ++ rest'.take consumed from rfl, List.getLast?_append, hlast]
                  rfl
                · rw [List.take_append_drop, hlen2, hspan]
                  exact heq
          · right
            refine ⟨lbrace :: (rest'.take consumed ++ pre), mid, post, ?_, ?_, hmid, hlt,
              hl, hinn⟩
            · simp only [List.cons_append, List.append_assoc]
              simp only [List.append_assoc] at hsplit
              rw [← hsplit, List.take_append_drop]
            · rw [utf8Len_cons, utf8Len_append, hascii,
                show lbrace.utf8Size = 1 from by decide]
              omega
      · rw [if_neg hc1] at hok
        by_cases hc2 : c = rbrace
        · rw [if_pos hc2] at hok
          subst hc2
          by_cases hr : rest'.head? = some rbrace
          · rw [if_pos hr] at hok
            obtain ⟨rest2, rfl⟩ : ∃ rest2, rest' = rbrace :: rest2 := by
              cases rest' with
              | nil => cases hr
              | cons a b =>
                simp only [List.head?_cons, Option.some.injEq] at hr
                exact ⟨b, by rw [hr]⟩
            rw [show (rbrace :: rest2).drop 1 = rest2 from rfl] at hok
            have hrec := ih rest2 (pos + 2) acc out
              (by rw [List.length_cons, List.length_cons] at hlen; omega) hok p hp
            rcases hrec with hin | ⟨pre, mid, post, hsplit, hpre, hmid, hlt, hl, hinn⟩
            · exact Or.inl hin
            · right
              refine ⟨rbrace :: rbrace :: pre, mid, post, by simp [hsplit], ?_,
                hmid, hlt, hl, hinn⟩
              rw [utf8Len_cons, utf8Len_cons, show rbrace.utf8Size = 1 from by decide]
              omega
          · rw [if_neg hr] at hok
            cases hok
        · rw [if_neg hc2] at hok
          by_cases hc3 : c = '@'
          · rw [if_pos hc3] at hok
            cases hok
          · rw [if_neg hc3] at hok
            have hrec := ih rest' (pos + c.utf8Size) acc out
              (by rw [List.length_cons] at hlen; omega) hok p hp
            rcases hrec with hin | ⟨pre, mid, post, hsplit, hpre, hmid, hlt, hl, hinn⟩
            · exact Or.inl hin
            · right
              refine ⟨c :: pre, mid, post, by simp [hsplit], ?_, hmid, hlt, hl, hinn⟩
              rw [utf8Len_cons]
              omega

theorem assign_foldl_spans : ∀ (params : List Param) (st : AState),
    ∀ q ∈ (params.foldl assignStep st).parameters,
      q ∈ st.parameters ∨ ∃ p ∈ params, p.span = q.span ∧ p.ty = q.ty ∧
        (p.index = some q.index ∨ p.index = none) := by
  intro params
  induction params with
  | nil =>
    intro st q hq
    exact Or.inl hq
  | cons p ps ih =>
    intro st q hq
    rw [List.foldl_cons] at hq
    rcases ih (assignStep st p) q hq with hin | ⟨p2, hp2, hsp, hty, hidx⟩
    · cases hpx : p.index with
      | some k =>
        rw [show assignStep st p =
            ⟨st.i, insertSorted k st.used, st.parameters ++ [⟨k, p.ty, p.span⟩]⟩
          from by simp [assignStep, hpx]] at hin
        simp only [List.mem_append, List.mem_singleton] at hin
        rcases hin with hin | rfl
        · exact Or.inl hin
        · exact Or.inr ⟨p, by simp, rfl, rfl, Or.inl (by rw [hpx])⟩
      | none =>
        rw [show assignStep st p =
            ⟨firstFree st.used st.i, insertSorted (firstFree st.used st.i) st.used,
              st.parameters ++ [⟨firstFree st.used st.i, p.ty, p.span⟩]⟩
          from by simp [assignStep, hpx]] at hin
        simp only [List.mem_append, List.mem_singleton] at hin
        rcases hin with hin | rfl
        · exact Or.inl hin
        · exact Or.inr ⟨p, by simp, rfl, rfl, Or.inr hpx⟩
    · exact Or.inr ⟨p2, by simp [hp2], hsp, hty, hidx⟩

theorem parse_span_decomp (s : List Char) (ps : List Parameter)
    (hok : parse s = PRes.ok ps) :
    ∀ q ∈ ps, ∃ pre mid post, s = pre ++ mid ++ post ∧
      utf8Len pre = q.span.1 ∧ q.span.2 = q.span.1 + utf8Len mid ∧
      q.span.1 < q.span.2 ∧ q.span.2 ≤ utf8Len s ∧ mid.getLast? = some rbrace ∧
      ∃ inner idxo, mid = lbrace :: inner ∧ (idxo = some q.index ∨ idxo = none) ∧
        handlePlaceholder q.span.1 (inner ++ post) [] =
          PRes.ok ([{ index := idxo, ty := q.ty, span := q.span }], inner.length) := by
  intro q hq
  rcases hloop : parseLoop (s.length + 1) s 0 [] with _ | e | params
  · rw [parse, hloop] at hok
    cases hok
  · rw [parse, hloop] at hok
    cases hok
  · rw [parse, hloop] at hok
    simp only [assign_indices] at hok
    by_cases hc : contiguousFrom (params.foldl assignStep ⟨0, [], []⟩).used 0 = true
    · rw [if_pos hc] at hok
      have hps : (params.foldl assignStep ⟨0, [], []⟩).parameters = ps := by
        cases hok
        rfl
      rcases assign_foldl_spans params ⟨0, [], []⟩ q (hps ▸ hq) with
        hin | ⟨p, hpmem, hspan, hty, hidx⟩
      · simp at hin
      · rcases parseLoop_spans (s.length + 1) s 0 [] params (by omega) hloop p hpmem with
          hin | ⟨pre, mid, post, h1, h2, h3, h4, h5, inner, h6, h7⟩
        · simp at hin
        · have hq1 : p.span.1 = q.span.1 := by rw [hspan]
          have hq2 : p.span.2 = q.span.2 := by rw [hspan]
          refine ⟨pre, mid, post, h1, by omega, by omega, by omega, ?_, h5,
            inner, p.index, h6, ?_, ?_⟩
          · rw [h1, utf8Len_append, utf8Len_append]
            omega
          · rcases hidx with h | h
            · exact Or.inl h
            · exact Or.inr h
          · rw [← hspan, ← hty]
            rw [show ({ index := p.index, ty := p.ty, span := p.span } : Param) = p
              from rfl]
            exact h7
    · rw [if_neg hc] at hok
      cases hok

/-! ## The claims -/

/-- Claim C1: the spec asserts that for every input string `parse` returns a value
(Ok or an error message) and that no input causes an uncatchable fault, in particular
not the bit-range sub-grammar when the text after the start digits is shorter than two
bytes.  The code violates this: on the input "\x7b:0" the byte slice
`&s[start_digits..start_digits + 2]` in `parse_range` (lib.rs line 73) overruns the
string and the program panics.  This theorem evaluates the model at that failing
input. -/
theorem claim_C1 : parse (tok "\x7b:0") = PRes.panicked := by decide

/-- Claim C2 counterexample: on an array length literal that does not fit in the
64-bit size type, `parse` does fail, but with the message
"position index must fit in `usize`" (produced by the shared `parse_usize` helper),
not with "length must fit in the size type" as the claim states. -/
theorem claim_C2_cex :
    parse (tok "\x7b:[u8; 18446744073709551616]\x7d") =
      PRes.error "position index must fit in `usize`" ∧
    ("position index must fit in `usize`" : String) ≠ "length must fit in the size type" := by
  constructor
  · decide
  · decide

/-- Claim C2 (amended): when the decimal array-length literal in `\x7b:[u8; N]\x7d`
does not fit in the platform size type (modeled as 64 bits), parse fails with the
error message "position index must fit in `usize`". -/
theorem claim_C2 (ds : List Char) (hne : ds ≠ []) (h : ∀ c ∈ ds, isd c = true)
    (hov : USIZE_LIMIT ≤ digitsToNat ds) :
    parse (tok "\x7b:[u8; " ++ ds ++ tok "]\x7d") =
      PRes.error "position index must fit in `usize`" :=
  array_overflow_parse_eq ds hne h hov

/-- Witness for C2 at the literal 18446744073709551616 = 2^64. -/
theorem claim_C2_w :
    parse (tok "\x7b:[u8; " ++ tok "18446744073709551616" ++ tok "]\x7d") =
      PRes.error "position index must fit in `usize`" :=
  claim_C2 (tok "18446744073709551616") (by decide) (by decide) (by decide)

/-- Claim C3: a bit-range placeholder `\x7b:a..b\x7d` (a, b decimal digit runs parsed
as 8-bit unsigned integers) is accepted exactly when b is strictly greater than a and
both are less than 32; and the four concrete examples of the claim. -/
theorem claim_C3 :
    (∀ da db : List Char, da ≠ [] → db ≠ [] →
      (∀ c ∈ da, isd c = true) → (∀ c ∈ db, isd c = true) →
      parse (tok "\x7b:" ++ da ++ tok ".." ++ db ++ [rbrace]) =
        (if digitsToNat da < digitsToNat db ∧ digitsToNat da < 32 ∧ digitsToNat db < 32
         then PRes.ok [{ index := 0, ty := Ty.BitField (digitsToNat da) (digitsToNat db),
                         span := (0, da.length + db.length + 5) }]
         else PRes.error "invalid format argument")) ∧
    parse (tok "\x7b:0..0\x7d") = PRes.error "invalid format argument" ∧
    parse (tok "\x7b:1..0\x7d") = PRes.error "invalid format argument" ∧
    parse (tok "\x7b:0..31\x7d") =
      PRes.ok [{ index := 0, ty := Ty.BitField 0 31, span := (0, 8) }] ∧
    parse (tok "\x7b:0..32\x7d") = PRes.error "invalid format argument" :=
  ⟨bitrange_parse_eq, by decide, by decide, by decide, by decide⟩

/-- Witness for C3 at the range text 0..31. -/
theorem claim_C3_w :
    parse (tok "\x7b:" ++ ['0'] ++ tok ".." ++ ['3', '1'] ++ [rbrace]) =
      (if digitsToNat ['0'] < digitsToNat ['3', '1'] ∧ digitsToNat ['0'] < 32 ∧
          digitsToNat ['3', '1'] < 32
       then PRes.ok [{ index := 0,
                       ty := Ty.BitField (digitsToNat ['0']) (digitsToNat ['3', '1']),
                       span := (0, (['0'] : List Char).length +
                         (['3', '1'] : List Char).length + 5) }]
       else PRes.error "invalid format argument") :=
  claim_C3.1 ['0'] ['3', '1'] (by decide) (by decide) (by decide) (by decide)

/-- Claim C4: the index sequence computed by the source's assignment loop equals the
spec's cursor model (`specAssign`): each placeholder lacking an explicit index gets
the smallest index not already used that is at least the cursor, and the cursor never
moves backwards; `firstFree` is indeed that smallest free index; and
parse "\x7b:u8\x7d \x7b:u16\x7d" yields indices 0, 1 in order. -/
theorem claim_C4 :
    (∀ params : List Param,
      ((params.foldl assignStep ⟨0, [], []⟩).parameters).map Parameter.index =
        specAssign params 0 []) ∧
    (∀ (used : List Nat) (i : Nat), i ≤ firstFree used i ∧ firstFree used i ∉ used ∧
      ∀ j, i ≤ j → j < firstFree used i → j ∈ used) ∧
    parse (tok "\x7b:u8\x7d \x7b:u16\x7d") =
      PRes.ok [{ index := 0, ty := Ty.U8, span := (0, 5) },
               { index := 1, ty := Ty.U16, span := (6, 12) }] :=
  ⟨assign_indices_spec, firstFree_spec, by decide⟩

/-- Witness for C4: the free-index search evaluated on the used set \x7b0, 1\x7d. -/
theorem claim_C4_w :
    0 ≤ firstFree [0, 1] 0 ∧ firstFree [0, 1] 0 ∉ ([0, 1] : List Nat) :=
  ⟨(claim_C4.2.1 [0, 1] 0).1, (claim_C4.2.1 [0, 1] 0).2.1⟩

/-- Claim C5: a successful parse has no index gap — every index smaller than a used
index is also used by some parameter (so the distinct indices are exactly
\x7b0, ..., N-1\x7d) — and parse "\x7b2:u8\x7d \x7b1:u16\x7d" fails with
"the format string contains unused positions". -/
theorem claim_C5 :
    (∀ (s : List Char) (ps : List Parameter), parse s = PRes.ok ps →
      ∀ p ∈ ps, ∀ j, j < p.index → ∃ q ∈ ps, q.index = j) ∧
    parse (tok "\x7b2:u8\x7d \x7b1:u16\x7d") =
      PRes.error "the format string contains unused positions" :=
  ⟨parse_index_downward_closed, by decide⟩

/-- Witness for C5 on parse "\x7b1:u8\x7d \x7b:u16\x7d": below the explicit index 1
some parameter carries index 0. -/
theorem claim_C5_w :
    ∃ q ∈ ([{ index := 1, ty := Ty.U8, span := (0, 6) },
            { index := 0, ty := Ty.U16, span := (7, 13) }] : List Parameter),
      q.index = 0 :=
  claim_C5.1 (tok "\x7b1:u8\x7d \x7b:u16\x7d")
    [{ index := 1, ty := Ty.U8, span := (0, 6) },
     { index := 0, ty := Ty.U16, span := (7, 13) }]
    (by decide) { index := 1, ty := Ty.U8, span := (0, 6) } (by decide) 0 (by decide)

/-- Claim C6: the consistency check on an explicit index fires exactly when some
earlier placeholder carries the same explicit index with a different type, both not
being bitfields; when it fires the message is "argument i assigned more than one
type"; parse "\x7b0:u8\x7d \x7b0:u16\x7d" is that error while
parse "\x7b0:0..4\x7d \x7b0:2..6\x7d" succeeds with two bitfields on index 0. -/
theorem claim_C6 :
    (∀ (params : List Param) (i : Nat) (ty : Ty),
      typeConflict params (some i) ty ≠ none ↔
        ∃ p ∈ params, p.index = some i ∧ p.ty ≠ ty ∧ bothBitField p.ty ty = false) ∧
    (∀ (params : List Param) (i : Nat) (ty : Ty),
      typeConflict params (some i) ty ≠ none →
      typeConflict params (some i) ty =
        some ("argument " ++ Nat.repr i ++ " assigned more than one type")) ∧
    parse (tok "\x7b0:u8\x7d \x7b0:u16\x7d") =
      PRes.error "argument 0 assigned more than one type" ∧
    parse (tok "\x7b0:0..4\x7d \x7b0:2..6\x7d") =
      PRes.ok [{ index := 0, ty := Ty.BitField 0 4, span := (0, 8) },
               { index := 0, ty := Ty.BitField 2 6, span := (9, 17) }] :=
  ⟨typeConflict_spec, typeConflict_msg, by decide, by decide⟩

/-- Witness for C6: the type-conflict error surfaced by parse. -/
theorem claim_C6_w :
    parse (tok "\x7b0:u8\x7d \x7b0:u16\x7d") =
      PRes.error "argument 0 assigned more than one type" :=
  claim_C6.2.2.1

/-- Claim C7: for every Parameter of a successful parse, the span is a half-open byte
interval (start, end) with 0 ≤ start < end ≤ byte length of the input, and the
substring of the input at that span is exactly this parameter's own verbatim
placeholder text: it splits the input as pre ++ mid ++ post with byte offsets
utf8Len pre and utf8Len pre + utf8Len mid, mid begins with the opening brace and ends
with the closing brace, and re-running the placeholder recognizer at the span's start
on the text after that opening brace (inner ++ post) reproduces exactly this
parameter's pre-assignment record — its type, its span, and its index when written
explicitly (idxo = none marks an implicit placeholder, whose index the resolver
assigned) — consuming exactly inner, the span's interior; "\x7b:u8\x7d" has span
(0, 5). -/
theorem claim_C7 :
    (∀ (s : List Char) (ps : List Parameter), parse s = PRes.ok ps →
      ∀ q ∈ ps, ∃ pre mid post, s = pre ++ mid ++ post ∧
        utf8Len pre = q.span.1 ∧ q.span.2 = q.span.1 + utf8Len mid ∧
        q.span.1 < q.span.2 ∧ q.span.2 ≤ utf8Len s ∧ mid.getLast? = some rbrace ∧
        ∃ inner idxo, mid = lbrace :: inner ∧ (idxo = some q.index ∨ idxo = none) ∧
          handlePlaceholder q.span.1 (inner ++ post) [] =
            PRes.ok ([{ index := idxo, ty := q.ty, span := q.span }], inner.length)) ∧
    parse (tok "\x7b:u8\x7d") = PRes.ok [{ index := 0, ty := Ty.U8, span := (0, 5) }] :=
  ⟨parse_span_decomp, by decide⟩

/-- Witness for C7 on the input "\x7b:u8\x7d". -/
theorem claim_C7_w :
    ∃ pre mid post, tok "\x7b:u8\x7d" = pre ++ mid ++ post ∧
      utf8Len pre = 0 ∧ 5 = 0 + utf8Len mid ∧ 0 < 5 ∧ 5 ≤ utf8Len (tok "\x7b:u8\x7d") ∧
      mid.getLast? = some rbrace ∧
      ∃ inner idxo, mid = lbrace :: inner ∧ (idxo = some 0 ∨ idxo = none) ∧
        handlePlaceholder 0 (inner ++ post) [] =
          PRes.ok ([{ index := idxo, ty := Ty.U8, span := (0, 5) }], inner.length) :=
  claim_C7.1 (tok "\x7b:u8\x7d") [{ index := 0, ty := Ty.U8, span := (0, 5) }]
    (by decide) { index := 0, ty := Ty.U8, span := (0, 5) } (by decide)

/-- Claim C8: the spec asserts every input containing the character @ makes parse
return an error, e.g. on "a@b\x7b:u8\x7d".  The example holds, but the code violates
the general statement: on "\x7b:0@" the bit-range sub-grammar's byte slice panics
before the @ is ever seen, so parse does not return at all. -/
theorem claim_C8 :
    parse (tok "\x7b:0@") = PRes.panicked ∧
    parse (tok "a@b\x7b:u8\x7d") =
      PRes.error "format string cannot contain the `@` character" := by
  constructor
  · decide
  · decide

/-- Claim C9: after a left brace, a run of decimal digits that parses as a usize and
is followed immediately by another left brace is accepted silently — both braces and
the digits are consumed, no placeholder is recorded, and the parsed index is
discarded; parse "\x7b12\x7b" returns Ok with an empty parameter list. -/
theorem claim_C9 :
    (∀ (pos : Nat) (params : List Param) (ds rest : List Char), ds ≠ [] →
      (∀ c ∈ ds, isd c = true) → digitsToNat ds < USIZE_LIMIT →
      handlePlaceholder pos (ds ++ lbrace :: rest) params = PRes.ok (params, ds.length + 1)) ∧
    parse (tok "\x7b12\x7b") = PRes.ok [] :=
  ⟨digits_escape_spec, by decide⟩

/-- Witness for C9 on the digits 12 followed by a left brace. -/
theorem claim_C9_w :
    handlePlaceholder 0 (['1', '2'] ++ lbrace :: []) [] =
      PRes.ok ([], (['1', '2'] : List Char).length + 1) :=
  claim_C9.1 0 [] ['1', '2'] [] (by decide) (by decide) (by decide)

/-- Claim C10: the type-consistency check never involves a placeholder whose index
was assigned implicitly — a current placeholder without an explicit index is never
checked, and previously accepted implicit placeholders are invisible to the check
(filtering them out changes nothing) — so parse "\x7b:u8\x7d \x7b0:u16\x7d" succeeds
with two Parameters of index 0 and different non-bitfield types. -/
theorem claim_C10 :
    (∀ (params : List Param) (ty : Ty), typeConflict params none ty = none) ∧
    (∀ (params : List Param) (i : Nat) (ty : Ty),
      typeConflict params (some i) ty =
        typeConflict (params.filter (fun p => decide (p.index ≠ none))) (some i) ty) ∧
    parse (tok "\x7b:u8\x7d \x7b0:u16\x7d") =
      PRes.ok [{ index := 0, ty := Ty.U8, span := (0, 5) },
               { index := 0, ty := Ty.U16, span := (6, 13) }] :=
  ⟨typeConflict_none, typeConflict_filter, by decide⟩

end Defmt
